import Mathlib

/-!
# libkefir: textual field values to stored bytes

A shallow embedding of `src/libkefir_parse.c`, the part of libkefir that turns
the text of a match value (an integer, a hardware address, an IPv4 or IPv6
address, each with an optional `/mask` suffix) into the bytes kept in a
`struct kefir_match`, followed by theorems about it.

Conventions of the embedding.

* A C string is the `List Char` of its characters before the terminating NUL;
  the end of the list plays the role of the NUL.  A pointer into a string is
  the offset (a `Nat`) from its first character.
* A byte buffer (`void *output`, `uint8_t *mask`, `struct ether_addr`) is a
  `List Nat` of bytes.  Every function returns its `int` status together with
  the buffers as they are after the call.  `output` and `mask` are distinct
  buffers, each at least as long as the field written to it.
* Machine integers are `Nat` with explicit reduction: `unsigned int` and
  `uint32_t` modulo `2^32`, `uint8_t` modulo `2^8`, `unsigned long` modulo
  `2^64`.  The target is Linux on x86-64 with glibc: LP64, little-endian, and
  a 32-bit `<<` whose result wraps (C itself leaves `2 << 31` undefined).
* `err_fail` only records a diagnostic message; it is left out.
* The C library functions the file calls (`strtoul`, `strchr`, `ether_aton`,
  `inet_pton`, `htonl`, `htons`, `ntohl`) are modelled after glibc.
-/

namespace Kefir

/-! ## Machine integers and memory -/

/-- Number of values of `unsigned long` (LP64). -/
def ULONG_MOD : Nat := 2 ^ 64

/-- Largest `unsigned long`. -/
def ULONG_MAX : Nat := 2 ^ 64 - 1

/-- Byte swap of a 32-bit value. -/
def bswap32 (v : Nat) : Nat :=
  (v % 256) * 2 ^ 24 + (v / 2 ^ 8 % 256) * 2 ^ 16 + (v / 2 ^ 16 % 256) * 2 ^ 8 + v / 2 ^ 24 % 256

/-- Byte swap of a 16-bit value. -/
def bswap16 (v : Nat) : Nat :=
  (v % 256) * 2 ^ 8 + v / 2 ^ 8 % 256

/-- The libc `htonl` on a little-endian host; the argument is a `uint32_t`. -/
def htonl (v : Nat) : Nat := bswap32 (v % 2 ^ 32)

/-- The libc `ntohl` on a little-endian host. -/
def ntohl (v : Nat) : Nat := bswap32 (v % 2 ^ 32)

/-- The libc `htons` on a little-endian host; the argument is converted to `uint16_t`. -/
def htons (v : Nat) : Nat := bswap16 (v % 2 ^ 16)

/-- The C `memcpy(dst, src, n)`: the first `n` bytes of `dst` become those of `src`. -/
def memcpy (dst src : List Nat) (n : Nat) : List Nat :=
  src.take n ++ dst.drop n

/-- The store `*(uint8_t *)p = v`. -/
def store_u8 (p : List Nat) (v : Nat) : List Nat :=
  memcpy p [v % 256] 1

/-- The store `*(uint16_t *)p = v` on a little-endian host. -/
def store_u16 (p : List Nat) (v : Nat) : List Nat :=
  memcpy p [v % 256, v / 2 ^ 8 % 256] 2

/-- The store `*(uint32_t *)p = v` on a little-endian host. -/
def store_u32 (p : List Nat) (v : Nat) : List Nat :=
  memcpy p [v % 256, v / 2 ^ 8 % 256, v / 2 ^ 16 % 256, v / 2 ^ 24 % 256] 4

/-- Status and output buffer after a call of a parser without mask. -/
structure Stored where
  ret : Int
  output : List Nat
deriving DecidableEq

/-- Status, output buffer and mask buffer after a call of a slash-mask parser. -/
structure StoredMasked where
  ret : Int
  output : List Nat
  mask : List Nat
deriving DecidableEq

/-! ## parse_check_and_store_uint -/

/-- The C expression `x << k` on 32-bit `int` operands as x86-64 computes it:
the count is taken modulo 32 and the result keeps its low 32 bits (returned
as a bit pattern). -/
def shl_int (x k : Nat) : Nat := (x * 2 ^ (k % 32)) % 2 ^ 32

/-- Conversion of a 32-bit `int`, given by its bit pattern, to `unsigned long`
(sign extension). -/
def int_to_ulong (bits : Nat) : Nat :=
  if bits < 2 ^ 31 then bits else bits + (2 ^ 64 - 2 ^ 32)

/-- The bound `(unsigned long)(2 << (nb_bits - 1)) - 1` of line 23; `nb_bits - 1`
is computed in `uint32_t`. -/
def upper_bound (nb_bits : Nat) : Nat :=
  (int_to_ulong (shl_int 2 ((nb_bits % 2 ^ 32 + 2 ^ 32 - 1) % 2 ^ 32)) + 2 ^ 64 - 1) % 2 ^ 64

/-- The C function `parse_check_and_store_uint` (lines 18-36).  The argument
`val` is converted to the parameter type `unsigned int` on entry. -/
def parse_check_and_store_uint (val : Nat) (output : List Nat) (nb_bits : Nat)
    (is_net_byte_order : Bool) : Stored :=
  let val := val % 2 ^ 32
  let tmp := if is_net_byte_order then ntohl val else val
  if tmp > upper_bound nb_bits then
    ⟨-1, output⟩
  else if nb_bits ≤ 8 then
    ⟨0, store_u8 output val⟩
  else if nb_bits ≤ 16 then
    ⟨0, store_u16 output (if is_net_byte_order then val else htons val)⟩
  else
    ⟨0, store_u32 output (if is_net_byte_order then val else htonl val)⟩

/-! ## strtoul and parse_uint -/

/-- The C `isspace` in the C locale. -/
def isspace (c : Char) : Bool :=
  c.toNat = 32 || (9 ≤ c.toNat && c.toNat ≤ 13)

/-- Value of a character as a digit of `strtoul`: `0-9`, then letters of
either case from 10 on. -/
def digit_value (c : Char) : Option Nat :=
  let n := c.toNat
  if 48 ≤ n ∧ n ≤ 57 then some (n - 48)
  else if 97 ≤ n ∧ n ≤ 122 then some (n - 97 + 10)
  else if 65 ≤ n ∧ n ≤ 90 then some (n - 65 + 10)
  else none

/-- The longest run of digits of `base` at the front of a string: the value
accumulated from `acc` (unbounded) and the number of characters in the run. -/
def scan_digits (base : Nat) : List Char → Nat → Nat × Nat
  | [], acc => (acc, 0)
  | c :: cs, acc =>
    match digit_value c with
    | some d =>
      if d < base then
        let r := scan_digits base cs (acc * base + d)
        (r.1, r.2 + 1)
      else (acc, 0)
    | none => (acc, 0)

/-- Whether a string starts with `0x` or `0X`. -/
def starts_with_0x : List Char → Bool
  | c :: x :: _ => c = '0' && (x = 'x' || x = 'X')
  | _ => false

/-- The part of `strtoul` after white space and sign: `s` is the text from
there on, `off` its offset from `nptr` and `neg` tells whether a minus sign was
read.  Base 0 reads a `0x` prefix as hexadecimal, another leading `0` as octal
and anything else as decimal; base 16 skips a `0x` prefix.  A value above
`ULONG_MAX` is returned as `ULONG_MAX`; a minus sign negates modulo `2^64`;
with no digit at all `endptr` is `nptr` (offset 0), except that in `0x`
followed by no hexadecimal digit the `0` is the numeral. -/
def strtoul_digits (s : List Char) (base : Nat) (neg : Bool) (off : Nat) : Nat × Nat :=
  let hex : Bool := (base = 0 ∨ base = 16) && starts_with_0x s
  let base : Nat :=
    if hex then 16
    else if base = 0 then (if s.head? = some '0' then 8 else 10)
    else base
  let pre : Nat := if hex then 2 else 0
  let r := scan_digits base (s.drop pre) 0
  if r.2 = 0 then
    if hex then (0, off + 1) else (0, 0)
  else if r.1 > ULONG_MAX then (ULONG_MAX, off + pre + r.2)
  else if neg then ((ULONG_MOD - r.1) % ULONG_MOD, off + pre + r.2)
  else (r.1, off + pre + r.2)

/-- The libc `strtoul(nptr, &endptr, base)` for `base` 0 or 2..36: the
`unsigned long` returned and the offset of `endptr` from `nptr`.  Leading
white space and one sign are skipped, then the digits are read. -/
def strtoul (nptr : List Char) (base : Nat) : Nat × Nat :=
  let ws := (nptr.takeWhile isspace).length
  let s := nptr.drop ws
  let neg : Bool := s.head? = some '-'
  let sg : Nat := if s.head? = some '-' ∨ s.head? = some '+' then 1 else 0
  strtoul_digits (s.drop sg) base neg (ws + sg)

/-- The character a pointer at offset `p` of a string points to; `none` is the
terminating NUL. -/
def deref (s : List Char) (p : Nat) : Option Char := s.get? p

/-- The C function `parse_uint` (lines 38-50). -/
def parse_uint (input : List Char) (output : List Nat) (nb_bits : Nat) : Stored :=
  let r := strtoul input 0
  let res := r.1 % 2 ^ 32
  let endptr := r.2
  if deref input endptr ≠ none then
    ⟨-1, output⟩
  else
    parse_check_and_store_uint res output nb_bits false

/-! ## bitmask_from_int -/

/-- The loop of `bitmask_from_int` with `n = size - i` iterations left before
`i < size` fails.  `mask` is a `uint8_t`, so `mask -= 8` is taken modulo `2^8`;
the value stored in `bitmask[i]` is converted to `uint8_t`. -/
def bitmask_from_int_loop : Nat → Nat → Nat → List Nat → List Nat
  | 0, _, _, bitmask => bitmask
  | n + 1, i, mask, bitmask =>
    if mask > 0 then
      bitmask_from_int_loop n (i + 1) ((mask + 256 - 8) % 256)
        (bitmask.set i (if mask > 8 then 0xff else (0xff <<< (8 - mask)) % 256))
    else bitmask

/-- The C function `bitmask_from_int` (lines 52-58); the argument `mask` is
converted to the parameter type `uint8_t` on entry. -/
def bitmask_from_int (mask : Nat) (bitmask : List Nat) (size : Nat) : List Nat :=
  bitmask_from_int_loop size 0 (mask % 256) bitmask

/-! ## parse_uint_slash_mask -/

/-- The libc `strchr(s, c)`: the offset of the first `c` in `s`, `none` for a
null pointer. -/
def strchr : List Char → Char → Option Nat
  | [], _ => none
  | x :: xs, c => if x = c then some 0 else (strchr xs c).map (· + 1)

/-- The C function `parse_uint_slash_mask` (lines 60-78). -/
def parse_uint_slash_mask (input : List Char) (output : List Nat) (nb_bits : Nat)
    (mask : List Nat) : StoredMasked :=
  let slash := strchr input '/'
  let m : Stored :=
    match slash with
    | some p => parse_uint (input.drop (p + 1)) mask nb_bits
    | none => ⟨0, mask⟩
  if m.ret ≠ 0 then
    ⟨-1, output, m.output⟩
  else
    let r := strtoul input 10
    let res := r.1 % 2 ^ 32
    let endptr := r.2
    if deref input endptr ≠ none ∧ some endptr ≠ slash then
      ⟨-1, output, m.output⟩
    else
      let s := parse_check_and_store_uint res output nb_bits false
      ⟨s.ret, s.output, m.output⟩

/-! ## Ethernet addresses -/

/-- Value of a hexadecimal digit of either case (glibc lowers the character
with `_tolower` first). -/
def hex_digit_value (c : Char) : Option Nat :=
  let n := c.toNat
  if 48 ≤ n ∧ n ≤ 57 then some (n - 48)
  else if 97 ≤ n ∧ n ≤ 102 then some (n - 97 + 10)
  else if 65 ≤ n ∧ n ≤ 70 then some (n - 65 + 10)
  else none

/-- The loop of glibc's `ether_aton_r` with `n = 6 - cnt` octets left to read.
Each octet is one or two hexadecimal digits; a second digit is read unless the
next character is `:` (or, for the last octet, NUL or white space); after two
digits a `:` must follow, except after the last octet, where nothing more is
looked at. -/
def ether_aton_loop : Nat → List Char → Option (List Nat)
  | 0, _ => some []
  | n + 1, asc =>
    match asc with
    | [] => none
    | c :: rest =>
      match hex_digit_value c with
      | none => none
      | some d1 =>
        let ch := rest.head?
        if (n ≠ 0 ∧ ch ≠ some ':') ∨ (n = 0 ∧ ch ≠ none ∧ ch.all isspace = false) then
          match rest with
          | [] => none
          | c2 :: rest2 =>
            match hex_digit_value c2 with
            | none => none
            | some d2 =>
              if n ≠ 0 ∧ rest2.head? ≠ some ':' then none
              else (ether_aton_loop n (rest2.drop 1)).map (fun t => (d1 * 16 + d2) :: t)
        else (ether_aton_loop n (rest.drop 1)).map (fun t => d1 :: t)

/-- The libc `ether_aton`: the six octets of the address, `none` for a null
pointer. -/
def ether_aton (asc : List Char) : Option (List Nat) :=
  ether_aton_loop 6 asc

/-- The C function `parse_eth_addr` (lines 80-96). -/
def parse_eth_addr (input : List Char) (output : List Nat) : Stored :=
  match ether_aton input with
  | none => ⟨-1, output⟩
  | some addr => ⟨0, memcpy output addr 6⟩

/-- The C function `parse_eth_addr_slash_mask` (lines 98-128). -/
def parse_eth_addr_slash_mask (input : List Char) (output : List Nat)
    (mask : List Nat) : StoredMasked :=
  let slash := strchr input '/'
  let m : Stored :=
    match slash with
    | some p =>
      match ether_aton (input.drop (p + 1)) with
      | some mask_bits => ⟨0, memcpy mask mask_bits 6⟩
      | none =>
        let r := strtoul (input.drop (p + 1)) 10
        let mask_int := r.1 % 2 ^ 32
        let endptr := r.2
        if deref (input.drop (p + 1)) endptr ≠ none ∨ mask_int > 48 then
          ⟨-1, mask⟩
        else
          ⟨0, bitmask_from_int mask_int mask 6⟩
    | none => ⟨0, mask⟩
  if m.ret ≠ 0 then
    ⟨-1, output, m.output⟩
  else
    let r := parse_eth_addr input output
    ⟨r.ret, r.output, m.output⟩

/-! ## IP addresses -/

/-- Address families handed to `inet_pton`. -/
inductive AddrFamily where
  | AF_INET
  | AF_INET6
deriving DecidableEq

open AddrFamily

/-- The loop of glibc's `inet_pton4` over the characters left: `done` holds
the octets completed so far, `cur` is the octet being read (`*tp`) and
`saw_digit` tells whether it has a digit yet.  Returns the four octets. -/
def inet_pton4_loop : List Char → List Nat → Nat → Bool → Option (List Nat)
  | [], done, cur, saw_digit =>
    if saw_digit ∧ done.length = 3 then some (done ++ [cur]) else none
  | ch :: src, done, cur, saw_digit =>
    if 48 ≤ ch.toNat ∧ ch.toNat ≤ 57 then
      let new := cur * 10 + (ch.toNat - 48)
      if saw_digit ∧ cur = 0 then none
      else if new > 255 then none
      else if ¬ saw_digit ∧ done.length + 1 > 4 then none
      else inet_pton4_loop src done new true
    else if ch = '.' ∧ saw_digit then
      if done.length + 1 = 4 then none
      else inet_pton4_loop src (done ++ [cur]) 0 false
    else none

/-- The glibc `inet_pton4`: dotted decimal, four octets of at most 255 each
without a superfluous leading zero. -/
def inet_pton4 (src : List Char) : Option (List Nat) :=
  inet_pton4_loop src [] 0 false

/-- The main loop of glibc's `inet_pton6`.  `curtok` is the text from the start
of the current group, `tp` the bytes written so far, `colonp` the position of
a `::` in them, `seen` the number of hexadecimal digits of the current group
and `val` their value.  Returns `tp`, `colonp` and the pending group. -/
def inet_pton6_loop : List Char → List Char → List Nat → Option Nat → Nat → Nat →
    Option (List Nat × Option Nat × Nat × Nat)
  | [], _, tp, colonp, seen, val => some (tp, colonp, seen, val)
  | ch :: src, curtok, tp, colonp, seen, val =>
    match hex_digit_value ch with
    | some d =>
      if seen = 4 then none
      else if val * 16 + d > 0xffff then none
      else inet_pton6_loop src curtok tp colonp (seen + 1) (val * 16 + d)
    | none =>
      if ch = ':' then
        if seen = 0 then
          if colonp.isSome then none
          else inet_pton6_loop src src tp (some tp.length) 0 val
        else if src = [] then none
        else if tp.length + 2 > 16 then none
        else inet_pton6_loop src src (tp ++ [val / 256 % 256, val % 256]) colonp 0 0
      else if ch = '.' ∧ tp.length + 4 ≤ 16 then
        match inet_pton4 curtok with
        | some b => some (tp ++ b, colonp, 0, val)
        | none => none
      else none

/-- The glibc `inet_pton6`: the text form of an IPv6 address, with at most
one `::` and an optional dotted-decimal tail, to its 16 bytes. -/
def inet_pton6 (src : List Char) : Option (List Nat) :=
  let start : Option (List Char) :=
    match src with
    | [] => none
    | ':' :: rest => if rest.head? = some ':' then some rest else none
    | _ => some src
  match start with
  | none => none
  | some s =>
    match inet_pton6_loop s s [] none 0 0 with
    | none => none
    | some (tp, colonp, seen, val) =>
      if seen > 0 ∧ tp.length + 2 > 16 then none
      else
        let tp := if seen > 0 then tp ++ [val / 256 % 256, val % 256] else tp
        match colonp with
        | some c =>
          if tp.length = 16 then none
          else some (tp.take c ++ List.replicate (16 - tp.length) 0 ++ tp.drop c)
        | none => if tp.length = 16 then some tp else none

/-- The libc `inet_pton(af, src, dst)`: the bytes written to `dst` when it
returns 1, `none` otherwise. -/
def inet_pton (af : AddrFamily) (src : List Char) : Option (List Nat) :=
  match af with
  | AF_INET => inet_pton4 src
  | AF_INET6 => inet_pton6 src

/-- The C function `parse_ip_addr` (lines 130-138). -/
def parse_ip_addr (af : AddrFamily) (input : List Char) (output : List Nat) : Stored :=
  match inet_pton af input with
  | none => ⟨-1, output⟩
  | some addr => ⟨0, memcpy output addr addr.length⟩

/-- The C function `parse_ipv4_addr` (lines 140-143). -/
def parse_ipv4_addr (input : List Char) (output : List Nat) : Stored :=
  parse_ip_addr AF_INET input output

/-- The C function `parse_ipv6_addr` (lines 145-148). -/
def parse_ipv6_addr (input : List Char) (output : List Nat) : Stored :=
  parse_ip_addr AF_INET6 input output

/-- The C function `parse_slash_prefix_mask` (lines 150-165); `max_val` is a
`uint8_t`. -/
def parse_slash_prefix_mask (input : List Char) (mask : List Nat) (max_val : Nat) : Stored :=
  let r := strtoul input 0
  let mask_int := r.1 % 2 ^ 32
  let endptr := r.2
  if deref input endptr ≠ none ∨ mask_int > max_val then
    ⟨-1, mask⟩
  else
    ⟨0, bitmask_from_int mask_int mask (max_val / 8)⟩

/-- The C function `parse_ip_addr_slash_mask` (lines 167-189); `strndup` gives
the text before the slash. -/
def parse_ip_addr_slash_mask (af : AddrFamily) (input : List Char) (output : List Nat)
    (mask : List Nat) : StoredMasked :=
  let slash := strchr input '/'
  let m : Stored :=
    match slash with
    | some p => parse_slash_prefix_mask (input.drop (p + 1)) mask (if af = AF_INET then 32 else 128)
    | none => ⟨0, mask⟩
  if m.ret ≠ 0 then
    ⟨-1, output, m.output⟩
  else
    let input_cpy :=
      match slash with
      | some p => input.take p
      | none => input
    let res := parse_ip_addr af input_cpy output
    ⟨res.ret, res.output, m.output⟩

/-- The C function `parse_ipv4_addr_slash_mask` (lines 191-195). -/
def parse_ipv4_addr_slash_mask (input : List Char) (output : List Nat)
    (mask : List Nat) : StoredMasked :=
  parse_ip_addr_slash_mask AF_INET input output mask

/-- The C function `parse_ipv6_addr_slash_mask` (lines 197-201). -/
def parse_ipv6_addr_slash_mask (input : List Char) (output : List Nat)
    (mask : List Nat) : StoredMasked :=
  parse_ip_addr_slash_mask AF_INET6 input output mask

/-! ## Vocabulary of the specification -/

/-- Size in bytes of the field that holds a value of `nb_bits` bits: 1 byte up
to 8 bits, 2 bytes up to 16 bits, 4 bytes otherwise. -/
def field_size (nb_bits : Nat) : Nat :=
  if nb_bits ≤ 8 then 1 else if nb_bits ≤ 16 then 2 else 4

/-- The `k` bytes of `v` in network (big-endian) order. -/
def be_encode : Nat → Nat → List Nat
  | 0, _ => []
  | k + 1, v => (v / 256 ^ k % 256) :: be_encode k v

/-- The integer a list of bytes stands for in network (big-endian) order. -/
def be_decode (bytes : List Nat) : Nat :=
  bytes.foldl (fun acc b => acc * 256 + b) 0

/-- The byte one iteration of `bitmask_from_int` writes for a remaining bit
count `r`. -/
def mask_byte (r : Nat) : Nat :=
  if r > 8 then 0xff else (0xff <<< (8 - r)) % 256

/-- Byte `i` of the mask whose first `n` bits, most significant bit of byte 0
first, are one and whose other bits are zero. -/
def prefix_mask_byte (n i : Nat) : Nat :=
  if n ≥ 8 * i + 8 then 0xff
  else if n > 8 * i then (0xff <<< (8 - (n - 8 * i))) % 256
  else 0x00

/-- The `size`-byte mask whose first `n` bits are one and whose other bits are
zero. -/
def prefix_mask (n size : Nat) : List Nat :=
  (List.range size).map (prefix_mask_byte n)

/-- A zero-filled buffer of `size` bytes. -/
def zero_buf (size : Nat) : List Nat := List.replicate size 0

/-- Whether every character of a string is a digit of `base`. -/
def all_digits (base : Nat) (ds : List Char) : Bool :=
  ds.all (fun c => match digit_value c with
    | some d => decide (d < base)
    | none => false)

/-- The value of a string of digits of `base`, first digit most significant. -/
def numeral_value (base : Nat) : List Char → Nat
  | [] => 0
  | c :: cs => (digit_value c).getD 0 * base ^ cs.length + numeral_value base cs

/-- The value of a text that is exactly one numeral: `0x` or `0X` followed by
hexadecimal digits; `0` followed by octal digits (or alone); or decimal digits
the first of which is not `0`.  `none` for any other text. -/
def literal_value (text : List Char) : Option Nat :=
  match text with
  | [] => none
  | c :: cs =>
    if c = '0' then
      match cs with
      | [] => some 0
      | x :: hs =>
        if x = 'x' ∨ x = 'X' then
          if hs ≠ [] ∧ all_digits 16 hs then some (numeral_value 16 hs) else none
        else if all_digits 8 cs then some (numeral_value 8 cs) else none
    else if all_digits 10 (c :: cs) then some (numeral_value 10 (c :: cs)) else none

/-- Whether no digit of any base starts the text: it is empty or its first
character is not alphanumeric. -/
def stops (t : List Char) : Bool :=
  match t with
  | [] => true
  | c :: _ => (digit_value c).isNone

/-- Length of the longest prefix of a text that is a numeral; 0 when no prefix
is one. -/
def longest_numeral_prefix (text : List Char) : Nat :=
  ((List.range (text.length + 1)).filter
    (fun k => (literal_value (text.take k)).isSome)).foldl max 0

theorem bitmask_from_int_loop_length (n i m : Nat) (bm : List Nat) :
    (bitmask_from_int_loop n i m bm).length = bm.length := by
  induction n generalizing i m bm with
  | zero => simp [bitmask_from_int_loop]
  | succ n ih =>
    rw [bitmask_from_int_loop]
    by_cases hpos : m > 0
    · rw [if_pos hpos, ih, List.length_set]
    · rw [if_neg hpos]

/-- What the loop of `bitmask_from_int` leaves at index `j`, for at most 31
iterations: the bytes of the prefix while bits remain, then, when the count
was not a multiple of 8, `0xff` in every later byte the loop reaches (the
counter has wrapped around), and the old content everywhere else. -/
theorem bitmask_from_int_loop_getElem? (n i m : Nat) (bm : List Nat) (j : Nat)
    (hm : m ≤ 255) (hn : n ≤ 31) :
    (bitmask_from_int_loop n i m bm)[j]? =
      if i ≤ j ∧ j < i + n ∧ j < bm.length ∧ (8 * (j - i) < m ∨ m % 8 ≠ 0) then
        some (if 8 * (j - i) < m then mask_byte (m - 8 * (j - i)) else 0xff)
      else bm[j]? := by
  induction n generalizing i m bm with
  | zero =>
    rw [bitmask_from_int_loop, if_neg]
    omega
  | succ n ih =>
    rw [bitmask_from_int_loop]
    have hx : (if m > 8 then 0xff else (0xff <<< (8 - m)) % 256) = mask_byte m := rfl
    by_cases hpos : m > 0
    · rw [if_pos hpos, hx, ih _ _ _ (by omega) (by omega), List.length_set, List.getElem?_set]
      by_cases hj : i = j
      · subst hj
        rw [if_neg (by omega), if_pos rfl]
        by_cases hlen : i < bm.length
        · rw [if_pos hlen, if_pos (by omega), if_pos (by omega)]
          simp
        · rw [if_neg hlen, if_neg (by omega)]
          exact (List.getElem?_eq_none (by omega)).symm
      · rw [if_neg hj]
        by_cases hc : i ≤ j ∧ j < i + (n + 1) ∧ j < bm.length ∧ (8 * (j - i) < m ∨ m % 8 ≠ 0)
        · rw [if_pos hc]
          by_cases h8 : m > 8
          · rw [if_pos (by omega)]
            by_cases hlt : 8 * (j - i) < m
            · rw [if_pos hlt, if_pos (by omega)]
              congr 2
              omega
            · rw [if_neg hlt, if_neg (by omega)]
          · have hm8 : m ≠ 8 := by omega
            rw [if_pos (by omega), if_pos (by omega), if_neg (by omega)]
            simp only [mask_byte]
            rw [if_pos (by omega)]
        · rw [if_neg hc, if_neg]
          omega
    · rw [if_neg hpos, if_neg]
      omega

theorem bytes_of_sum4 (a b c d : Nat) (ha : a < 256) (hb : b < 256) (hc : c < 256)
    (hd : d < 256) :
    (a * 2 ^ 24 + b * 2 ^ 16 + c * 2 ^ 8 + d) % 256 = d ∧
    (a * 2 ^ 24 + b * 2 ^ 16 + c * 2 ^ 8 + d) / 2 ^ 8 % 256 = c ∧
    (a * 2 ^ 24 + b * 2 ^ 16 + c * 2 ^ 8 + d) / 2 ^ 16 % 256 = b ∧
    (a * 2 ^ 24 + b * 2 ^ 16 + c * 2 ^ 8 + d) / 2 ^ 24 % 256 = a := by
  refine ⟨?_, ?_, ?_, ?_⟩ <;> omega

theorem bytes_of_sum2 (c d : Nat) (hc : c < 256) (hd : d < 256) :
    (c * 2 ^ 8 + d) % 256 = d ∧ (c * 2 ^ 8 + d) / 2 ^ 8 % 256 = c := by
  refine ⟨?_, ?_⟩ <;> omega

theorem store_be_u8 (out : List Nat) (v : Nat) :
    store_u8 out v = be_encode 1 v ++ out.drop 1 := by
  simp [store_u8, memcpy, be_encode]

theorem store_be_u16 (out : List Nat) (v : Nat) (hv : v < 2 ^ 16) :
    store_u16 out (htons v) = be_encode 2 v ++ out.drop 2 := by
  have h := bytes_of_sum2 (v % 256) (v / 2 ^ 8 % 256) (Nat.mod_lt _ (by norm_num))
    (Nat.mod_lt _ (by norm_num))
  have h1 : v / 256 % 256 = v / 256 := by omega
  simp only [store_u16, memcpy, be_encode, htons, bswap16, Nat.mod_eq_of_lt hv, h.1, h.2]
  simp [h1]

theorem store_be_u32 (out : List Nat) (v : Nat) (hv : v < 2 ^ 32) :
    store_u32 out (htonl v) = be_encode 4 v ++ out.drop 4 := by
  have h := bytes_of_sum4 (v % 256) (v / 2 ^ 8 % 256) (v / 2 ^ 16 % 256) (v / 2 ^ 24 % 256)
    (Nat.mod_lt _ (by norm_num)) (Nat.mod_lt _ (by norm_num)) (Nat.mod_lt _ (by norm_num))
    (Nat.mod_lt _ (by norm_num))
  simp only [store_u32, memcpy, be_encode, htonl, bswap32, Nat.mod_eq_of_lt hv, h.1, h.2.1,
    h.2.2.1, h.2.2.2]
  simp

theorem be_decode_encode_1 (v : Nat) (hv : v < 2 ^ 8) : be_decode (be_encode 1 v) = v := by
  simp [be_decode, be_encode]; omega

theorem be_decode_encode_2 (v : Nat) (hv : v < 2 ^ 16) : be_decode (be_encode 2 v) = v := by
  simp [be_decode, be_encode]; omega

theorem be_decode_encode_4 (v : Nat) (hv : v < 2 ^ 32) : be_decode (be_encode 4 v) = v := by
  simp [be_decode, be_encode]; omega

theorem be_encode_length (k v : Nat) : (be_encode k v).length = k := by
  induction k with
  | zero => rfl
  | succ k ih => simp [be_encode, ih]

theorem upper_bound_declared (b : Nat) (hb : b ∈ [1, 3, 6, 8, 12, 16, 20]) :
    upper_bound b = 2 ^ b - 1 := by
  simp only [List.mem_cons, List.mem_singleton, List.not_mem_nil, or_false] at hb
  rcases hb with h | h | h | h | h | h | h <;> subst h <;> decide

theorem upper_bound_32 : upper_bound 32 = 2 ^ 64 - 1 := by decide

/-- In host order a value within the bound is stored in network order in a
field of `field_size nb_bits` bytes. -/
theorem parse_check_and_store_uint_host (v b : Nat) (out : List Nat) (hv : v < 2 ^ 32)
    (hle : v ≤ upper_bound b) (hf : v < 2 ^ (8 * field_size b)) :
    parse_check_and_store_uint v out b false
      = ⟨0, be_encode (field_size b) v ++ out.drop (field_size b)⟩ := by
  unfold parse_check_and_store_uint field_size at *
  simp only [Nat.mod_eq_of_lt hv, Bool.false_eq_true, if_false, if_neg (Nat.not_lt.mpr hle)]
  by_cases h8 : b ≤ 8
  · simp only [if_pos h8] at hf ⊢
    rw [store_be_u8]
  · by_cases h16 : b ≤ 16
    · simp only [if_neg h8, if_pos h16] at hf ⊢
      rw [store_be_u16 _ _ hf]
    · simp only [if_neg h8, if_neg h16] at hf ⊢
      rw [store_be_u32 _ _ hv]

/-- For a declared width the bound of line 23 admits every value of that
width, and such a value fits the field. -/
theorem declared_width_facts (b : Nat) (hb : b ∈ [1, 3, 6, 8, 12, 16, 20, 32]) :
    2 ^ b - 1 < 2 ^ 32 ∧ 2 ^ b - 1 ≤ upper_bound b ∧ 2 ^ b - 1 < 2 ^ (8 * field_size b) := by
  simp only [List.mem_cons, List.mem_singleton, List.not_mem_nil, or_false] at hb
  rcases hb with h | h | h | h | h | h | h | h <;> subst h <;> decide

/-- A value of a declared width given in host order is accepted and stored in
network order. -/
theorem store_declared (b v : Nat) (out : List Nat)
    (hb : b ∈ [1, 3, 6, 8, 12, 16, 20, 32]) (hv : v ≤ 2 ^ b - 1) :
    parse_check_and_store_uint v out b false
      = ⟨0, be_encode (field_size b) v ++ out.drop (field_size b)⟩ :=
  have hu := declared_width_facts b hb
  parse_check_and_store_uint_host v b out (lt_of_le_of_lt hv hu.1) (le_trans hv hu.2.1)
    (lt_of_le_of_lt hv hu.2.2)

/-- What `bitmask_from_int` leaves in a zero-filled buffer of `s` bytes for a
bit count `n ≤ 8 * s ≤ 255`: the prefix mask up to and including the byte that
holds bit `n`, and, when `n` is not a multiple of 8, `0xff` in every byte after
it. -/
theorem bitmask_from_int_zero_buf (s n j : Nat) (hs : 8 * s ≤ 255) (hn : n ≤ 8 * s) :
    (bitmask_from_int n (zero_buf s) s)[j]? =
      if j < s then some (if n % 8 ≠ 0 ∧ n / 8 < j then 0xff else prefix_mask_byte n j)
      else none := by
  unfold bitmask_from_int
  rw [Nat.mod_eq_of_lt (by omega : n < 256),
    bitmask_from_int_loop_getElem? s 0 n (zero_buf s) j (by omega) (by omega)]
  have hlen : (zero_buf s).length = s := by simp [zero_buf]
  rw [hlen]
  by_cases hj : j < s
  · rw [if_pos hj]
    have hz : (zero_buf s)[j]? = some 0 := by
      simp [zero_buf, List.getElem?_replicate, hj]
    by_cases hc : 8 * (j - 0) < n ∨ n % 8 ≠ 0
    · rw [if_pos ⟨Nat.zero_le _, by omega, hj, hc⟩]
      by_cases hlt : 8 * (j - 0) < n
      · rw [if_pos hlt, if_neg (by omega)]
        simp only [mask_byte, prefix_mask_byte, Nat.sub_zero] at hlt ⊢
        by_cases h8 : n - 8 * j > 8
        · rw [if_pos h8, if_pos (by omega)]
        · rw [if_neg h8]
          by_cases h9 : n - 8 * j = 8
          · rw [if_pos (by omega), h9]
            rfl
          · rw [if_neg (by omega), if_pos (by omega)]
      · rw [if_neg hlt, if_pos (by omega)]
    · rw [if_neg (by tauto), hz, if_neg (by omega)]
      simp only [prefix_mask_byte]
      rw [if_neg (by omega), if_neg (by omega)]
  · rw [if_neg hj, if_neg (by omega)]
    exact List.getElem?_eq_none (by omega)

theorem prefix_mask_getElem? (n s j : Nat) :
    (prefix_mask n s)[j]? = if j < s then some (prefix_mask_byte n j) else none := by
  unfold prefix_mask
  by_cases hj : j < s
  · simp [hj, List.getElem?_range]
  · simp [hj]
    omega

theorem bswap32_of_bytes (a b c d : Nat) (ha : a < 256) (hb : b < 256) (hc : c < 256)
    (hd : d < 256) :
    bswap32 (a * 2 ^ 24 + b * 2 ^ 16 + c * 2 ^ 8 + d) = d * 2 ^ 24 + c * 2 ^ 16 + b * 2 ^ 8 + a := by
  have h := bytes_of_sum4 a b c d ha hb hc hd
  unfold bswap32
  rw [h.1, h.2.1, h.2.2.1, h.2.2.2]

theorem ntohl_htons (v : Nat) (hv : v < 2 ^ 16) : ntohl (htons v) = v * 2 ^ 16 := by
  have hx : htons v = 0 * 2 ^ 24 + 0 * 2 ^ 16 + v % 256 * 2 ^ 8 + v / 256 := by
    simp only [htons, bswap16, Nat.mod_eq_of_lt hv]
    omega
  have hlt : 0 * 2 ^ 24 + 0 * 2 ^ 16 + v % 256 * 2 ^ 8 + v / 256 < 2 ^ 32 := by omega
  rw [hx, ntohl, Nat.mod_eq_of_lt hlt,
    bswap32_of_bytes 0 0 (v % 256) (v / 256) (by omega) (by omega) (by omega) (by omega)]
  omega

theorem htonl_small (v : Nat) (hv : v < 2 ^ 16) :
    htonl v = v / 256 * 2 ^ 16 + v % 256 * 2 ^ 24 := by
  have hx : v = 0 * 2 ^ 24 + 0 * 2 ^ 16 + v / 256 * 2 ^ 8 + v % 256 := by omega
  have h32 : v < 2 ^ 32 := by omega
  rw [htonl, Nat.mod_eq_of_lt h32]
  conv_lhs => rw [hx]
  rw [bswap32_of_bytes 0 0 (v / 256) (v % 256) (by omega) (by omega) (by omega) (by omega)]
  omega

theorem ntohl_htonl (v : Nat) (hv : v < 2 ^ 32) : ntohl (htonl v) = v := by
  have hb := bswap32_of_bytes (v % 256) (v / 2 ^ 8 % 256) (v / 2 ^ 16 % 256) (v / 2 ^ 24 % 256)
    (Nat.mod_lt _ (by norm_num)) (Nat.mod_lt _ (by norm_num)) (Nat.mod_lt _ (by norm_num))
    (Nat.mod_lt _ (by norm_num))
  have hlt : v % 256 * 2 ^ 24 + v / 2 ^ 8 % 256 * 2 ^ 16 + v / 2 ^ 16 % 256 * 2 ^ 8
      + v / 2 ^ 24 % 256 < 2 ^ 32 := by omega
  have he : bswap32 v
      = v % 256 * 2 ^ 24 + v / 2 ^ 8 % 256 * 2 ^ 16 + v / 2 ^ 16 % 256 * 2 ^ 8
        + v / 2 ^ 24 % 256 := rfl
  rw [htonl, Nat.mod_eq_of_lt hv, ntohl, he, Nat.mod_eq_of_lt hlt, hb]
  clear hb he hlt
  omega

theorem scan_digits_stop (base : Nat) (t : List Char) (acc : Nat) (ht : stops t = true) :
    scan_digits base t acc = (acc, 0) := by
  cases t with
  | nil => rfl
  | cons c cs =>
    simp only [stops, Option.isNone_iff_eq_none] at ht
    simp [scan_digits, ht]

theorem scan_digits_append (base : Nat) (ds t : List Char) (acc : Nat)
    (hds : all_digits base ds = true) (ht : stops t = true) :
    scan_digits base (ds ++ t) acc
      = (acc * base ^ ds.length + numeral_value base ds, ds.length) := by
  induction ds generalizing acc with
  | nil => simp [scan_digits_stop base t acc ht, numeral_value]
  | cons c cs ih =>
    simp only [all_digits, List.all_cons, Bool.and_eq_true] at hds
    obtain ⟨hc, hcs⟩ := hds
    cases hd : digit_value c with
    | none => simp [hd] at hc
    | some d =>
      simp only [hd, decide_eq_true_eq] at hc
      have hcs' : all_digits base cs = true := hcs
      show scan_digits base (c :: (cs ++ t)) acc = _
      rw [scan_digits]
      simp only [hd, if_pos hc, ih _ hcs', numeral_value, Option.getD_some, List.length_cons]
      congr 1
      ring

theorem digit_not_space (c : Char) (d : Nat) (h : digit_value c = some d) :
    isspace c = false := by
  unfold digit_value at h
  unfold isspace
  simp only at h
  split_ifs at h <;> simp <;> omega

theorem digit_not_sign (c : Char) (d : Nat) (h : digit_value c = some d) :
    c ≠ '-' ∧ c ≠ '+' := by
  constructor
  · intro hc
    subst hc
    have h0 : digit_value '-' = none := by decide
    rw [h0] at h
    exact Option.noConfusion h
  · intro hc
    subst hc
    have h0 : digit_value '+' = none := by decide
    rw [h0] at h
    exact Option.noConfusion h

theorem strtoul_no_skip (c : Char) (rest : List Char) (base : Nat)
    (hs : isspace c = false) (h1 : c ≠ '-') (h2 : c ≠ '+') :
    strtoul (c :: rest) base = strtoul_digits (c :: rest) base false 0 := by
  unfold strtoul
  simp [List.takeWhile, hs, h1, h2]

theorem strtoul_digit_start (c : Char) (rest : List Char) (base d : Nat)
    (h : digit_value c = some d) :
    strtoul (c :: rest) base = strtoul_digits (c :: rest) base false 0 :=
  strtoul_no_skip c rest base (digit_not_space c d h) (digit_not_sign c d h).1
    (digit_not_sign c d h).2

/-- On a run of decimal digits followed by a text that no digit starts,
`strtoul` in base 10 returns the value of the run and stops right after it. -/
theorem strtoul_decimal (V t : List Char) (hne : V ≠ []) (hV : all_digits 10 V = true)
    (ht : stops t = true) (hv : numeral_value 10 V ≤ ULONG_MAX) :
    strtoul (V ++ t) 10 = (numeral_value 10 V, V.length) := by
  cases V with
  | nil => exact absurd rfl hne
  | cons c cs =>
    have hc : ∃ d, digit_value c = some d := by
      simp only [all_digits, List.all_cons, Bool.and_eq_true] at hV
      cases hd : digit_value c with
      | none => simp [hd] at hV
      | some d => exact ⟨d, rfl⟩
    obtain ⟨d, hd⟩ := hc
    rw [List.cons_append, strtoul_digit_start c _ 10 d hd]
    unfold strtoul_digits
    have hscan := scan_digits_append 10 (c :: cs) t 0 hV ht
    simp only [List.cons_append, Nat.zero_mul, Nat.zero_add] at hscan
    simp [hscan, Nat.not_lt.mpr hv]

theorem starts_with_0x_cons_ne (c : Char) (rest : List Char) (h : c ≠ '0') :
    starts_with_0x (c :: rest) = false := by
  cases rest with
  | nil => rfl
  | cons x r => simp [starts_with_0x, h]

theorem stops_not_x (t : List Char) (ht : stops t = true) :
    starts_with_0x ('0' :: t) = false := by
  cases t with
  | nil => rfl
  | cons x r =>
    simp only [stops, Option.isNone_iff_eq_none] at ht
    have hx : x ≠ 'x' := by
      intro h
      subst h
      exact absurd ht (by decide)
    have hX : x ≠ 'X' := by
      intro h
      subst h
      exact absurd ht (by decide)
    simp [starts_with_0x, hx, hX]

/-- On a numeral followed by a text that no digit starts, `strtoul` in base 0
returns the value of the numeral and stops right after it. -/
theorem strtoul_literal (N t : List Char) (v : Nat) (hN : literal_value N = some v)
    (ht : stops t = true) (hv : v ≤ ULONG_MAX) :
    strtoul (N ++ t) 0 = (v, N.length) := by
  cases N with
  | nil => simp [literal_value] at hN
  | cons c cs =>
    unfold literal_value at hN
    by_cases h0 : c = '0'
    · subst h0
      rw [List.cons_append, strtoul_digit_start '0' _ 0 0 (by decide)]
      simp only [if_true] at hN
      cases cs with
      | nil =>
        simp only [Option.some.injEq] at hN
        subst hN
        have hscan := scan_digits_append 8 ['0'] t 0 (by decide) ht
        simp only [List.cons_append, List.nil_append] at hscan
        unfold strtoul_digits
        simp [stops_not_x t ht, hscan, numeral_value]
        decide
      | cons x hs =>
        by_cases hx : x = 'x' ∨ x = 'X'
        · simp only [if_pos hx] at hN
          by_cases hh : hs ≠ [] ∧ all_digits 16 hs = true
          · simp only [if_pos hh, Option.some.injEq] at hN
            subst hN
            have hscan := scan_digits_append 16 hs t 0 hh.2 ht
            simp only [Nat.zero_mul, Nat.zero_add] at hscan
            have hlen : hs.length ≠ 0 := by
              simpa [List.length_eq_zero] using hh.1
            have hp : starts_with_0x ('0' :: x :: (hs ++ t)) = true := by
              rcases hx with h | h <;> subst h <;> rfl
            unfold strtoul_digits
            simp [hp, hscan, hlen, Nat.not_lt.mpr hv]
            omega
          · simp [if_neg hh] at hN
        · simp only [if_neg hx] at hN
          by_cases ho : all_digits 8 (x :: hs) = true
          · simp only [if_pos ho, Option.some.injEq] at hN
            subst hN
            have ho' : all_digits 8 ('0' :: x :: hs) = true := by
              have hz : all_digits 8 ['0'] = true := by decide
              unfold all_digits at ho hz ⊢
              rw [List.all_cons, ho]
              simpa using hz
            have hscan := scan_digits_append 8 ('0' :: x :: hs) t 0 ho' ht
            simp only [Nat.zero_mul, Nat.zero_add, List.cons_append] at hscan
            have hnv : numeral_value 8 ('0' :: x :: hs) = numeral_value 8 (x :: hs) := by
              rw [numeral_value]
              simp
              decide
            have hp : starts_with_0x ('0' :: x :: (hs ++ t)) = false := by
              have h1 : x ≠ 'x' := fun h => hx (Or.inl h)
              have h2 : x ≠ 'X' := fun h => hx (Or.inr h)
              simp [starts_with_0x, h1, h2]
            rw [hnv] at hscan
            unfold strtoul_digits
            simp [hp, hscan, Nat.not_lt.mpr hv]
          · simp [if_neg ho] at hN
    · simp only [if_neg h0] at hN
      by_cases hd : all_digits 10 (c :: cs) = true
      · simp only [if_pos hd, Option.some.injEq] at hN
        subst hN
        have hc : ∃ d, digit_value c = some d := by
          simp only [all_digits, List.all_cons, Bool.and_eq_true] at hd
          cases hd' : digit_value c with
          | none => simp [hd'] at hd
          | some d => exact ⟨d, rfl⟩
        obtain ⟨d, hdv⟩ := hc
        have hscan := scan_digits_append 10 (c :: cs) t 0 hd ht
        simp only [Nat.zero_mul, Nat.zero_add, List.cons_append] at hscan
        rw [List.cons_append, strtoul_digit_start c _ 0 d hdv]
        unfold strtoul_digits
        simp [starts_with_0x_cons_ne c _ h0, h0, hscan, Nat.not_lt.mpr hv]
      · simp [if_neg hd] at hN

theorem scan_digits_snd_le (base : Nat) (s : List Char) (acc : Nat) :
    (scan_digits base s acc).2 ≤ s.length := by
  induction s generalizing acc with
  | nil => simp [scan_digits]
  | cons c cs ih =>
    rw [scan_digits]
    cases hd : digit_value c with
    | none => simp
    | some d =>
      by_cases hlt : d < base
      · simp only [if_pos hlt, List.length_cons]
        exact Nat.succ_le_succ (ih _)
      · simp [if_neg hlt]

theorem scan_digits_full (base : Nat) (s : List Char) (acc : Nat)
    (h : (scan_digits base s acc).2 = s.length) : all_digits base s = true := by
  induction s generalizing acc with
  | nil => rfl
  | cons c cs ih =>
    rw [scan_digits] at h
    cases hd : digit_value c with
    | none => simp [hd] at h
    | some d =>
      by_cases hlt : d < base
      · simp only [hd, if_pos hlt, List.length_cons, Nat.add_right_cancel_iff] at h
        have := ih _ h
        unfold all_digits at this ⊢
        rw [List.all_cons, this]
        simp [hd, hlt]
      · simp [hd, if_neg hlt] at h

/-- The offset `strtoul_digits` returns. -/
theorem strtoul_digits_snd (s : List Char) (base : Nat) (neg : Bool) (off : Nat) :
    (strtoul_digits s base neg off).2 =
      if (scan_digits
            (if ((base = 0 ∨ base = 16) && starts_with_0x s) = true then 16
              else if base = 0 then (if s.head? = some '0' then 8 else 10) else base)
            (s.drop (if ((base = 0 ∨ base = 16) && starts_with_0x s) = true then 2 else 0)) 0).2 = 0
      then (if ((base = 0 ∨ base = 16) && starts_with_0x s) = true then off + 1 else 0)
      else off + (if ((base = 0 ∨ base = 16) && starts_with_0x s) = true then 2 else 0)
        + (scan_digits
            (if ((base = 0 ∨ base = 16) && starts_with_0x s) = true then 16
              else if base = 0 then (if s.head? = some '0' then 8 else 10) else base)
            (s.drop (if ((base = 0 ∨ base = 16) && starts_with_0x s) = true then 2 else 0)) 0).2 := by
  unfold strtoul_digits
  simp only
  split_ifs <;> rfl

theorem starts_with_0x_shape (s : List Char) (h : starts_with_0x s = true) :
    ∃ x hs, s = '0' :: x :: hs ∧ (x = 'x' ∨ x = 'X') := by
  match s, h with
  | c :: x :: hs, h =>
    simp only [starts_with_0x, Bool.and_eq_true, Bool.or_eq_true, decide_eq_true_eq] at h
    exact ⟨x, hs, by rw [h.1], h.2⟩

/-- When the digit-reading part of `strtoul` in base 0 reads a non-empty text
up to its end, the text is a numeral. -/
theorem strtoul_digits_full (s : List Char) (neg : Bool) (off : Nat) (hne : s ≠ [])
    (h : off + s.length ≤ (strtoul_digits s 0 neg off).2) :
    (literal_value s).isSome = true := by
  rw [strtoul_digits_snd] at h
  by_cases hp : starts_with_0x s = true
  · obtain ⟨x, hs, rfl, hx⟩ := starts_with_0x_shape s hp
    simp only [hp, true_or, decide_True, Bool.and_self, if_true, List.drop_succ_cons,
      List.drop_zero, List.length_cons] at h
    have hle := scan_digits_snd_le 16 hs 0
    by_cases hc : (scan_digits 16 hs 0).2 = 0
    · rw [if_pos hc] at h
      omega
    · rw [if_neg hc] at h
      have hall := scan_digits_full 16 hs 0 (by omega)
      have hne' : hs ≠ [] := by
        intro he
        subst he
        exact hc rfl
      simp [literal_value, hx, hne', hall]
  · have hp' : starts_with_0x s = false := by simpa using hp
    simp only [hp', Bool.and_false, Bool.false_eq_true, if_false, true_or, if_true,
      List.drop_zero, Nat.add_zero] at h
    cases s with
    | nil => exact absurd rfl hne
    | cons c cs =>
      by_cases h0 : c = '0'
      · subst h0
        simp only [List.head?_cons, if_true] at h
        have hle := scan_digits_snd_le 8 ('0' :: cs) 0
        by_cases hc : (scan_digits 8 ('0' :: cs) 0).2 = 0
        · rw [if_pos hc] at h
          simp only [List.length_cons] at h
          omega
        · rw [if_neg hc] at h
          have hall := scan_digits_full 8 ('0' :: cs) 0 (by omega)
          cases cs with
          | nil => simp [literal_value]
          | cons x hs =>
            have hx : ¬ (x = 'x' ∨ x = 'X') := by
              intro hx
              have : starts_with_0x ('0' :: x :: hs) = true := by
                rcases hx with e | e <;> subst e <;> rfl
              rw [this] at hp'
              exact Bool.noConfusion hp'
            have hall' : all_digits 8 (x :: hs) = true := by
              unfold all_digits at hall ⊢
              rw [List.all_cons] at hall
              exact (Bool.and_eq_true _ _ ▸ hall).2
            simp [literal_value, hx, hall']
      · have hh : ¬ (some c = some '0') := by simpa using h0
        simp only [List.head?_cons, if_neg hh] at h
        have hle := scan_digits_snd_le 10 (c :: cs) 0
        by_cases hc : (scan_digits 10 (c :: cs) 0).2 = 0
        · rw [if_pos hc] at h
          simp only [List.length_cons] at h
          omega
        · rw [if_neg hc] at h
          have hall := scan_digits_full 10 (c :: cs) 0 (by omega)
          simp [literal_value, h0, hall]

theorem deref_length (s : List Char) : deref s s.length = none := by
  simp [deref]

theorem width_field_size (b : Nat) (hb : b ∈ [8, 16, 32]) :
    b ∈ [1, 3, 6, 8, 12, 16, 20, 32] ∧ field_size b = b / 8 := by
  simp only [List.mem_cons, List.mem_singleton, List.not_mem_nil, or_false] at hb
  rcases hb with h | h | h <;> subst h <;> decide

/-- A text that is exactly one numeral of a value within the declared width is
accepted by `parse_uint` and stored in network order. -/
theorem parse_uint_literal (text : List Char) (v b : Nat) (out : List Nat)
    (hb : b ∈ [1, 3, 6, 8, 12, 16, 20, 32]) (hN : literal_value text = some v)
    (hv : v ≤ 2 ^ b - 1) :
    parse_uint text out b = ⟨0, be_encode (field_size b) v ++ out.drop (field_size b)⟩ := by
  have hu := declared_width_facts b hb
  have h32 : v < 2 ^ 32 := lt_of_le_of_lt hv hu.1
  have h := strtoul_literal text [] v hN rfl (by unfold ULONG_MAX; omega)
  rw [List.append_nil] at h
  unfold parse_uint
  simp only [h, deref_length, ne_eq, not_true_eq_false, if_false, Nat.mod_eq_of_lt h32]
  exact store_declared b v out hb hv

theorem strtoul_digits_nil (base : Nat) (neg : Bool) (off : Nat) :
    (strtoul_digits [] base neg off).2 = 0 := by
  rw [strtoul_digits_snd]
  simp [starts_with_0x, scan_digits]

theorem takeWhile_split (p : Char → Bool) (l : List Char) :
    l = l.takeWhile p ++ l.drop (l.takeWhile p).length ∧ (l.takeWhile p).all p = true := by
  constructor
  · have h1 := List.takeWhile_append_dropWhile p l
    have h2 : (l.takeWhile p ++ l.dropWhile p).drop (l.takeWhile p).length
        = l.dropWhile p := List.drop_left _ _
    rw [h1] at h2
    rw [h2, h1]
  · rw [List.all_eq_true]
    intro x hx
    exact List.mem_takeWhile_imp hx

/-- A text `parse_uint` accepts is empty or made of white space, at most one
sign and one numeral, in this order. -/
theorem parse_uint_accepts_shape (text : List Char) (out : List Nat) (b : Nat)
    (h : (parse_uint text out b).ret = 0) :
    text = [] ∨ ∃ ws sg N, text = ws ++ sg ++ N ∧ ws.all isspace = true ∧
      (sg = [] ∨ sg = ['+'] ∨ sg = ['-']) ∧ (literal_value N).isSome = true := by
  unfold parse_uint at h
  by_cases hd : deref text (strtoul text 0).2 ≠ none
  · simp [if_pos hd] at h
  · clear h
    simp only [ne_eq, not_not, deref, List.get?_eq_none] at hd
    unfold strtoul at hd
    simp only at hd
    obtain ⟨hsplit, hall⟩ := takeWhile_split isspace text
    generalize text.takeWhile isspace = w at hd hsplit hall
    generalize hs : text.drop w.length = s at hd hsplit
    have hlen : text.length = w.length + s.length := by
      conv_lhs => rw [hsplit]
      simp
    cases s with
    | nil =>
      left
      simp only [List.head?_nil, List.drop_nil, strtoul_digits_nil] at hd
      exact List.length_eq_zero.mp (by omega)
    | cons c cs =>
      right
      by_cases hsg : c = '-' ∨ c = '+'
      · have hsg' : some c = some '-' ∨ some c = some '+' := by
          rcases hsg with e | e <;> subst e <;> simp
        simp only [List.head?_cons, if_pos hsg', List.drop_succ_cons, List.drop_zero] at hd
        cases cs with
        | nil =>
          rw [strtoul_digits_nil] at hd
          simp only [List.length_cons] at hlen
          omega
        | cons x xs =>
          have hlit := strtoul_digits_full (x :: xs) (decide (some c = some '-'))
            (w.length + 1) (by simp) (by
              simp only [List.length_cons] at hlen ⊢
              omega)
          refine ⟨w, [c], x :: xs, ?_, hall, ?_, hlit⟩
          · rw [hsplit]
            simp
          · rcases hsg with e | e <;> subst e <;> simp
      · have hsg' : ¬ (some c = some '-' ∨ some c = some '+') := by
          simpa using hsg
        simp only [List.head?_cons, if_neg hsg', List.drop_zero, Nat.add_zero] at hd
        have hlit := strtoul_digits_full (c :: cs) (decide (some c = some '-')) w.length
          (by simp) (by omega)
        exact ⟨w, [], c :: cs, by rw [hsplit]; simp, hall, Or.inl rfl, hlit⟩

theorem strchr_none (s : List Char) (c : Char) (h : c ∉ s) : strchr s c = none := by
  induction s with
  | nil => rfl
  | cons x xs ih =>
    simp only [List.mem_cons, not_or] at h
    simp [strchr, Ne.symm h.1, ih h.2]

theorem strchr_append (V M : List Char) (c : Char) (h : c ∉ V) :
    strchr (V ++ c :: M) c = some V.length := by
  induction V with
  | nil => simp [strchr]
  | cons x xs ih =>
    simp only [List.mem_cons, not_or] at h
    simp [strchr, Ne.symm h.1, ih h.2]

theorem all_digits_no_slash (base : Nat) (V : List Char) (h : all_digits base V = true) :
    '/' ∉ V := by
  intro hmem
  unfold all_digits at h
  rw [List.all_eq_true] at h
  have := h '/' hmem
  have h0 : digit_value '/' = none := by decide
  simp [h0] at this

/-- A text that is exactly one numeral of a value that fits `unsigned long`
reaches the bound check reduced modulo `2^32`. -/
theorem parse_uint_literal_wraps (text : List Char) (v b : Nat) (out : List Nat)
    (hN : literal_value text = some v) (hv : v ≤ ULONG_MAX) :
    parse_uint text out b = parse_check_and_store_uint (v % 2 ^ 32) out b false := by
  have h := strtoul_literal text [] v hN rfl hv
  rw [List.append_nil] at h
  unfold parse_uint
  simp only [h, deref_length, ne_eq, not_true_eq_false, if_false]


/-- When `ether_aton` accepts a text with a `/suffix`, it accepts the text
before the slash with the same octets: it never gets to read past the slash
and accept. -/
theorem ether_aton_loop_slash (n : Nat) (A S : List Char) (b : List Nat)
    (h : ether_aton_loop n (A ++ '/' :: S) = some b) : ether_aton_loop n A = some b := by
  induction n generalizing A b with
  | zero =>
    rw [ether_aton_loop] at h ⊢
    exact h
  | succ n ih =>
    have hslash : hex_digit_value '/' = none := by decide
    cases A with
    | nil =>
      rw [List.nil_append, ether_aton_loop] at h
      simp [hslash] at h
    | cons c rest =>
      rw [List.cons_append, ether_aton_loop] at h
      rw [ether_aton_loop]
      cases hc : hex_digit_value c with
      | none => simp [hc] at h
      | some d1 =>
        simp only [hc] at h ⊢
        cases rest with
        | nil =>
          by_cases hn : n = 0
          · subst hn
            simp [hslash, isspace] at h
          · simp [hn, hslash] at h
        | cons c2 rest2 =>
          simp only [List.cons_append, List.head?_cons] at h ⊢
          by_cases hcond : (n ≠ 0 ∧ some c2 ≠ some ':') ∨
              (n = 0 ∧ some c2 ≠ none ∧ (some c2).all isspace = false)
          · rw [if_pos hcond] at h ⊢
            cases hc2 : hex_digit_value c2 with
            | none => simp [hc2] at h
            | some d2 =>
              simp only [hc2] at h ⊢
              cases rest2 with
              | nil =>
                by_cases hn : n = 0
                · subst hn
                  simp [ether_aton_loop] at h ⊢
                  exact h
                · simp [hn] at h
              | cons c3 rest3 =>
                simp only [List.cons_append, List.head?_cons, List.drop_succ_cons,
                  List.drop_zero] at h ⊢
                by_cases hc3 : n ≠ 0 ∧ some c3 ≠ some ':'
                · rw [if_pos hc3] at h
                  exact absurd h (by simp)
                · rw [if_neg hc3] at h ⊢
                  cases hl : ether_aton_loop n (rest3 ++ '/' :: S) with
                  | none => simp [hl] at h
                  | some t =>
                    rw [hl] at h
                    rw [ih rest3 t hl]
                    exact h
          · rw [if_neg hcond] at h ⊢
            simp only [List.drop_succ_cons, List.drop_zero] at h ⊢
            cases hl : ether_aton_loop n (rest2 ++ '/' :: S) with
            | none => simp [hl] at h
            | some t =>
              rw [hl] at h
              rw [ih rest2 t hl]
              exact h

/-- When `parse_eth_addr_slash_mask` accepts a text `A/S`, `parse_eth_addr`
accepts `A` alone and writes the same address bytes. -/
theorem parse_eth_addr_of_slash_mask (A S : List Char) (out mask : List Nat)
    (h : (parse_eth_addr_slash_mask (A ++ '/' :: S) out mask).ret = 0) :
    parse_eth_addr A out
      = ⟨0, (parse_eth_addr_slash_mask (A ++ '/' :: S) out mask).output⟩ := by
  unfold parse_eth_addr_slash_mask at h ⊢
  simp only at h ⊢
  split_ifs at h ⊢ with hm
  · simp at h
  · simp only at h ⊢
    unfold parse_eth_addr at h ⊢
    cases he : ether_aton (A ++ '/' :: S) with
    | none =>
      rw [he] at h
      simp at h
    | some addr =>
      have hA : ether_aton A = some addr := ether_aton_loop_slash 6 A S addr he
      simp only [hA]

theorem split_at_slash (A P : List Char) (hA : '/' ∉ A) :
    strchr (A ++ '/' :: P) '/' = some A.length ∧
      (A ++ '/' :: P).drop (A.length + 1) = P ∧ (A ++ '/' :: P).take A.length = A := by
  refine ⟨strchr_append A P '/' hA, ?_, ?_⟩
  · rw [show A ++ '/' :: P = (A ++ ['/']) ++ P by simp]
    exact List.drop_left' (by simp)
  · exact List.take_left' rfl

/-- On a text `A/P` split at its first `/`, `parse_ip_addr_slash_mask` first
hands `P` to `parse_slash_prefix_mask`, then `A` alone to `parse_ip_addr`. -/
theorem parse_ip_addr_slash_mask_split (af : AddrFamily) (A P : List Char)
    (out mask : List Nat) (hA : '/' ∉ A) :
    parse_ip_addr_slash_mask af (A ++ '/' :: P) out mask =
      if (parse_slash_prefix_mask P mask (if af = AF_INET then 32 else 128)).ret ≠ 0 then
        ⟨-1, out, (parse_slash_prefix_mask P mask (if af = AF_INET then 32 else 128)).output⟩
      else
        ⟨(parse_ip_addr af A out).ret, (parse_ip_addr af A out).output,
          (parse_slash_prefix_mask P mask (if af = AF_INET then 32 else 128)).output⟩ := by
  obtain ⟨h1, h2, h3⟩ := split_at_slash A P hA
  unfold parse_ip_addr_slash_mask
  simp only [h1, h2, h3]

theorem ip_slash_mask_refines (af : AddrFamily) (A P : List Char) (out mask : List Nat)
    (hA : '/' ∉ A) :
    ((parse_ip_addr_slash_mask af (A ++ '/' :: P) out mask).ret = 0 ↔
        (parse_slash_prefix_mask P mask (if af = AF_INET then 32 else 128)).ret = 0 ∧
          (parse_ip_addr af A out).ret = 0) ∧
      ((parse_ip_addr_slash_mask af (A ++ '/' :: P) out mask).ret = 0 →
        (parse_ip_addr_slash_mask af (A ++ '/' :: P) out mask).output
          = (parse_ip_addr af A out).output) := by
  rw [parse_ip_addr_slash_mask_split af A P out mask hA]
  by_cases hm : (parse_slash_prefix_mask P mask (if af = AF_INET then 32 else 128)).ret ≠ 0
  · rw [if_pos hm]
    simp [hm]
  · rw [if_neg hm]
    simp only [ne_eq, not_not] at hm
    simp [hm]

/-- A numeral that fits `unsigned long` reaches the bound check of
`parse_slash_prefix_mask` reduced modulo `2^32`. -/
theorem parse_slash_prefix_mask_literal (P : List Char) (v w : Nat) (mask : List Nat)
    (hP : literal_value P = some v) (hv : v ≤ ULONG_MAX) :
    parse_slash_prefix_mask P mask w =
      if v % 2 ^ 32 > w then ⟨-1, mask⟩ else ⟨0, bitmask_from_int (v % 2 ^ 32) mask (w / 8)⟩ := by
  have h := strtoul_literal P [] v hP rfl hv
  rw [List.append_nil] at h
  unfold parse_slash_prefix_mask
  simp only [h, deref_length, ne_eq, not_true_eq_false, false_or]

/-- A run of decimal digits is no hardware address for `ether_aton`. -/
theorem ether_aton_decimal (P : List Char) (hP : all_digits 10 P = true) :
    ether_aton P = none := by
  have hcolon : ∀ c : Char, c ∈ P → c ≠ ':' := by
    intro c hc h
    subst h
    unfold all_digits at hP
    rw [List.all_eq_true] at hP
    have := hP ':' hc
    have h0 : digit_value ':' = none := by decide
    simp [h0] at this
  show ether_aton_loop (5 + 1) P = none
  cases P with
  | nil => rw [ether_aton_loop]
  | cons c rest =>
    rw [ether_aton_loop]
    cases hex_digit_value c with
    | none => rfl
    | some d1 =>
      simp only
      cases rest with
      | nil => simp
      | cons c2 rest2 =>
        have h2 : c2 ≠ ':' := hcolon c2 (by simp)
        simp only [List.head?_cons]
        rw [if_pos (Or.inl ⟨by decide, by simpa using h2⟩)]
        cases hex_digit_value c2 with
        | none => rfl
        | some d2 =>
          simp only
          cases rest2 with
          | nil => simp
          | cons c3 rest3 =>
            have h3 : c3 ≠ ':' := hcolon c3 (by simp)
            simp [h3]
/-- What `parse_eth_addr_slash_mask` does on `A/P` when `P` is a run of
decimal digits whose value fits `unsigned long`. -/
theorem parse_eth_addr_slash_mask_decimal (A P : List Char) (out mask : List Nat)
    (hA : '/' ∉ A) (hne : P ≠ []) (hP : all_digits 10 P = true)
    (hv : numeral_value 10 P ≤ ULONG_MAX) :
    parse_eth_addr_slash_mask (A ++ '/' :: P) out mask =
      if numeral_value 10 P % 2 ^ 32 > 48 then ⟨-1, out, mask⟩
      else ⟨(parse_eth_addr (A ++ '/' :: P) out).ret, (parse_eth_addr (A ++ '/' :: P) out).output,
        bitmask_from_int (numeral_value 10 P % 2 ^ 32) mask 6⟩ := by
  obtain ⟨h1, h2, _⟩ := split_at_slash A P hA
  have hst := strtoul_decimal P [] hne hP rfl hv
  rw [List.append_nil] at hst
  unfold parse_eth_addr_slash_mask
  simp only [h1, h2, ether_aton_decimal P hP, hst, deref_length, ne_eq, not_true_eq_false,
    false_or]
  by_cases h48 : numeral_value 10 P % 2 ^ 32 > 48
  · simp only [if_pos h48]
    simp
  · simp only [if_neg h48]
    simp

/-- A numeral prefix length above the bound and below `2^32` is rejected by
`parse_slash_prefix_mask`, with the mask untouched. -/
theorem prefix_length_above_width_rejected (P : List Char) (v w : Nat) (mask : List Nat)
    (hP : literal_value P = some v) (hlo : w < v) (hhi : v < 2 ^ 32) :
    parse_slash_prefix_mask P mask w = ⟨-1, mask⟩ := by
  rw [parse_slash_prefix_mask_literal P v w mask hP (by unfold ULONG_MAX; omega),
    Nat.mod_eq_of_lt hhi, if_pos hlo]


/-- When `ether_aton` accepts both the whole text `A/M` and the suffix `M`,
`parse_eth_addr_slash_mask` returns 0, writes the six octets read from the
whole text as the address and copies the six octets of `M` into the mask. -/
theorem parse_eth_addr_slash_mask_literal (A M : List Char) (a m out mask : List Nat)
    (hA : '/' ∉ A) (hM : ether_aton M = some m) (hAM : ether_aton (A ++ '/' :: M) = some a) :
    parse_eth_addr_slash_mask (A ++ '/' :: M) out mask
      = ⟨0, memcpy out a 6, memcpy mask m 6⟩ := by
  obtain ⟨h1, h2, _⟩ := split_at_slash A M hA
  unfold parse_eth_addr_slash_mask parse_eth_addr
  simp only [h1, h2, hM, hAM]
  simp

theorem scan_digits_lt_of_mem (base : Nat) (s : List Char) (acc : Nat) (c : Char)
    (hc : c ∈ s) (hd : digit_value c = none) : (scan_digits base s acc).2 < s.length := by
  induction s generalizing acc with
  | nil => simp at hc
  | cons x xs ih =>
    rw [scan_digits]
    cases hx : digit_value x with
    | none => simp
    | some d =>
      have hne : c ≠ x := by
        intro h
        subst h
        rw [hd] at hx
        exact Option.noConfusion hx
      have hmem : c ∈ xs := by
        rcases List.mem_cons.mp hc with h | h
        · exact absurd h hne
        · exact h
      by_cases hlt : d < base
      · simp only [if_pos hlt, List.length_cons]
        exact Nat.succ_lt_succ (ih _ hmem)
      · simp [if_neg hlt]

/-- The digit-reading part of `strtoul` stops before a character that is no
digit of any base. -/
theorem strtoul_digits_lt_of_mem (s : List Char) (base : Nat) (neg : Bool) (off : Nat)
    (c : Char) (hc : c ∈ s) (hd : digit_value c = none) :
    (strtoul_digits s base neg off).2 < off + s.length := by
  rw [strtoul_digits_snd]
  have hpos : 0 < s.length := List.length_pos_of_mem hc
  by_cases hp : ((base = 0 ∨ base = 16) && starts_with_0x s) = true
  · simp only [hp, if_true]
    have hp' : starts_with_0x s = true := by
      simp only [Bool.and_eq_true] at hp
      exact hp.2
    obtain ⟨x, hs, rfl, hx⟩ := starts_with_0x_shape s hp'
    have h0 : c ≠ '0' := by
      intro h
      subst h
      exact absurd hd (by decide)
    have hxc : c ≠ x := by
      intro h
      subst h
      rcases hx with e | e <;> subst e <;> exact absurd hd (by decide)
    have hmem : c ∈ hs := by
      simp only [List.mem_cons] at hc
      rcases hc with h | h | h
      · exact absurd h h0
      · exact absurd h hxc
      · exact h
    have hlt := scan_digits_lt_of_mem 16 hs 0 c hmem hd
    simp only [List.drop_succ_cons, List.drop_zero, List.length_cons]
    split_ifs <;> omega
  · simp only [hp, if_false, List.drop_zero, Bool.false_eq_true]
    have hlt := scan_digits_lt_of_mem
      (if base = 0 then (if s.head? = some '0' then 8 else 10) else base) s 0 c hc hd
    split_ifs at hlt ⊢ <;> omega

/-- `strtoul` stops before a character that is neither white space, a sign
nor a digit of any base: it never reads a text containing one up to its
end. -/
theorem strtoul_lt_of_mem (S : List Char) (base : Nat) (c : Char) (hc : c ∈ S)
    (hd : digit_value c = none) (hsp : isspace c = false) (h1 : c ≠ '-') (h2 : c ≠ '+') :
    (strtoul S base).2 < S.length := by
  unfold strtoul
  simp only
  obtain ⟨hsplit, hall⟩ := takeWhile_split isspace S
  generalize S.takeWhile isspace = w at hsplit hall ⊢
  generalize hs : S.drop w.length = s at hsplit ⊢
  have hlen : S.length = w.length + s.length := by
    conv_lhs => rw [hsplit]
    simp
  have hcs : c ∈ s := by
    rw [hsplit, List.mem_append] at hc
    rcases hc with h | h
    · rw [List.all_eq_true] at hall
      have := hall c h
      rw [hsp] at this
      exact Bool.noConfusion this
    · exact h
  cases s with
  | nil => simp at hcs
  | cons x rest =>
    by_cases hsg : x = '-' ∨ x = '+'
    · have hsg' : some x = some '-' ∨ some x = some '+' := by
        rcases hsg with e | e <;> subst e <;> simp
      have hxc : c ≠ x := by
        rcases hsg with e | e <;> subst e <;> assumption
      have hmem : c ∈ rest := by
        rcases List.mem_cons.mp hcs with h | h
        · exact absurd h hxc
        · exact h
      simp only [List.head?_cons, if_pos hsg', List.drop_succ_cons, List.drop_zero]
      have := strtoul_digits_lt_of_mem rest base (decide (some x = some '-')) (w.length + 1) c
        hmem hd
      simp only [List.length_cons] at hlen
      omega
    · have hsg' : ¬ (some x = some '-' ∨ some x = some '+') := by
        simpa using hsg
      simp only [List.head?_cons, if_neg hsg', List.drop_zero, Nat.add_zero]
      have := strtoul_digits_lt_of_mem (x :: rest) base (decide (some x = some '-')) w.length c
        hcs hd
      omega

/-- A suffix containing `.` or `:` is no prefix length for
`parse_slash_prefix_mask`; the mask is left as it was. -/
theorem parse_slash_prefix_mask_address_shaped (S : List Char) (mask : List Nat) (w : Nat)
    (hS : '.' ∈ S ∨ ':' ∈ S) : parse_slash_prefix_mask S mask w = ⟨-1, mask⟩ := by
  have hlt : (strtoul S 0).2 < S.length := by
    rcases hS with h | h
    · exact strtoul_lt_of_mem S 0 '.' h (by decide) (by decide) (by decide) (by decide)
    · exact strtoul_lt_of_mem S 0 ':' h (by decide) (by decide) (by decide) (by decide)
  have hder : deref S (strtoul S 0).2 ≠ none := by
    unfold deref
    rw [ne_eq, List.get?_eq_none]
    omega
  unfold parse_slash_prefix_mask
  simp only [hder, ne_eq, not_false_eq_true, true_or, if_true]

theorem ether_aton_first_char (input : List Char)
    (h : ∀ c ∈ input.head?, hex_digit_value c = none) : ether_aton input = none := by
  show ether_aton_loop (5 + 1) input = none
  cases input with
  | nil => rw [ether_aton_loop]
  | cons c rest =>
    rw [ether_aton_loop]
    have hc : hex_digit_value c = none := h c (by simp)
    simp only [hc]

theorem strtoul_decimal_0x (x : Char) (rest : List Char) (hx : x = 'x' ∨ x = 'X') :
    strtoul ('0' :: x :: rest) 10 = (0, 1) := by
  rw [strtoul_digit_start '0' _ 10 0 (by decide)]
  have hd0 : digit_value '0' = some 0 := by decide
  have hdx : digit_value x = some 33 := by
    rcases hx with e | e <;> subst e <;> decide
  unfold strtoul_digits
  simp [scan_digits, hd0, hdx]

theorem strchr_0x (x : Char) (rest : List Char) (hx : x = 'x' ∨ x = 'X') :
    strchr ('0' :: x :: rest) '/' ≠ some 1 := by
  have h0 : ('0' : Char) ≠ '/' := by decide
  have hx' : x ≠ '/' := by
    rcases hx with e | e <;> subst e <;> decide
  rw [strchr, if_neg h0, strchr, if_neg hx']
  cases strchr rest '/' with
  | none => simp
  | some k => simp

/-- A text that starts with `0x` or `0X` is rejected by `parse_uint_slash_mask`,
with the output buffer untouched: in base 10 `strtoul` stops at the `x`. -/
theorem parse_uint_slash_mask_0x (x : Char) (rest : List Char) (out mask : List Nat) (b : Nat)
    (hx : x = 'x' ∨ x = 'X') :
    (parse_uint_slash_mask ('0' :: x :: rest) out b mask).ret = -1 ∧
      (parse_uint_slash_mask ('0' :: x :: rest) out b mask).output = out := by
  have hst := strtoul_decimal_0x x rest hx
  have hsl := strchr_0x x rest hx
  have hder : deref ('0' :: x :: rest) 1 ≠ none := by simp [deref]
  unfold parse_uint_slash_mask
  simp only [hst]
  split_ifs with h1 h2
  · exact ⟨rfl, rfl⟩
  · exact ⟨rfl, rfl⟩
  · exact absurd ⟨hder, fun h => hsl h.symm⟩ h2

theorem literal_value_decimal (D : List Char) (hne : D ≠ []) (hall : all_digits 10 D = true)
    (h0 : D.head? ≠ some '0') : literal_value D = some (numeral_value 10 D) := by
  cases D with
  | nil => exact absurd rfl hne
  | cons c cs =>
    have hc : c ≠ '0' := by simpa using h0
    simp [literal_value, hc, hall]

/-- A decimal numeral without leading zero and within the declared width is
accepted by `parse_uint_slash_mask` as it is by `parse_uint`. -/
theorem parse_uint_slash_mask_decimal (D : List Char) (b : Nat) (out mask : List Nat)
    (hb : b ∈ [1, 3, 6, 8, 12, 16, 20, 32]) (hne : D ≠ []) (hall : all_digits 10 D = true)
    (hv : numeral_value 10 D ≤ 2 ^ b - 1) :
    parse_uint_slash_mask D out b mask
      = ⟨0, be_encode (field_size b) (numeral_value 10 D) ++ out.drop (field_size b), mask⟩ := by
  have hu := declared_width_facts b hb
  have h32 : numeral_value 10 D < 2 ^ 32 := lt_of_le_of_lt hv hu.1
  have hst := strtoul_decimal D [] hne hall rfl (by unfold ULONG_MAX; omega)
  rw [List.append_nil] at hst
  unfold parse_uint_slash_mask
  simp only [strchr_none D '/' (all_digits_no_slash 10 D hall), hst, deref_length, ne_eq,
    not_true_eq_false, false_and, if_false, Nat.mod_eq_of_lt h32, store_declared b _ out hb hv]

theorem bitmask_from_int_length (n : Nat) (bm : List Nat) (size : Nat) :
    (bitmask_from_int n bm size).length = bm.length :=
  bitmask_from_int_loop_length _ _ _ _

theorem parse_check_and_store_uint_fail (val : Nat) (out : List Nat) (b : Nat) (net : Bool)
    (h : (parse_check_and_store_uint val out b net).ret ≠ 0) :
    (parse_check_and_store_uint val out b net).output = out := by
  unfold parse_check_and_store_uint at h ⊢
  simp only at h ⊢
  split_ifs at h ⊢ <;> first | rfl | exact absurd rfl h

theorem parse_uint_fail (input : List Char) (out : List Nat) (b : Nat)
    (h : (parse_uint input out b).ret ≠ 0) : (parse_uint input out b).output = out := by
  unfold parse_uint at h ⊢
  simp only at h ⊢
  split_ifs at h ⊢
  · rfl
  · exact parse_check_and_store_uint_fail _ out b false h

theorem parse_uint_slash_mask_fail (input : List Char) (out mask : List Nat) (b : Nat)
    (h : (parse_uint_slash_mask input out b mask).ret ≠ 0) :
    (parse_uint_slash_mask input out b mask).output = out := by
  unfold parse_uint_slash_mask at h ⊢
  simp only at h ⊢
  split_ifs at h ⊢
  · rfl
  · rfl
  · exact parse_check_and_store_uint_fail _ out b false h

theorem parse_eth_addr_fail (input : List Char) (out : List Nat)
    (h : (parse_eth_addr input out).ret ≠ 0) : (parse_eth_addr input out).output = out := by
  unfold parse_eth_addr at h ⊢
  cases he : ether_aton input with
  | none => rfl
  | some addr =>
    rw [he] at h
    exact absurd rfl h

theorem parse_eth_addr_slash_mask_fail (input : List Char) (out mask : List Nat)
    (h : (parse_eth_addr_slash_mask input out mask).ret ≠ 0) :
    (parse_eth_addr_slash_mask input out mask).output = out := by
  unfold parse_eth_addr_slash_mask at h ⊢
  simp only at h ⊢
  split_ifs at h ⊢
  · rfl
  · exact parse_eth_addr_fail input out h

/-! ## Claims -/

/-- C1 (what the code does at a failing input): for a prefix length that is
not a multiple of 8, here 4 for the hardware and IPv4 parsers and 60 for the
IPv6 parser, the call on a zero-filled mask succeeds but every mask byte after
the one holding the last prefix bit is `0xff`, where the mask with exactly the
first `n` bits set has `0x00`. -/
theorem C1_prefix_length_mask_overrun :
    parse_eth_addr_slash_mask "aa:bb:cc:dd:ee:ff/4".toList (zero_buf 6) (zero_buf 6)
        = ⟨0, [0xaa, 0xbb, 0xcc, 0xdd, 0xee, 0xff], [0xf0, 0xff, 0xff, 0xff, 0xff, 0xff]⟩ ∧
      prefix_mask 4 6 = [0xf0, 0, 0, 0, 0, 0] ∧
      parse_ipv4_addr_slash_mask "10.0.0.1/4".toList (zero_buf 4) (zero_buf 4)
        = ⟨0, [10, 0, 0, 1], [0xf0, 0xff, 0xff, 0xff]⟩ ∧
      prefix_mask 4 4 = [0xf0, 0, 0, 0] ∧
      (parse_ipv6_addr_slash_mask "2001:db8::1/60".toList (zero_buf 16) (zero_buf 16)).mask
        = [0xff, 0xff, 0xff, 0xff, 0xff, 0xff, 0xff, 0xf0,
           0xff, 0xff, 0xff, 0xff, 0xff, 0xff, 0xff, 0xff] ∧
      prefix_mask 60 16
        = [0xff, 0xff, 0xff, 0xff, 0xff, 0xff, 0xff, 0xf0, 0, 0, 0, 0, 0, 0, 0, 0] := by
  decide

/-- The three examples of the specification, whose prefix lengths are
multiples of 8, come out as the specification says. -/
theorem prefix_length_examples :
    parse_eth_addr_slash_mask "aa:bb:cc:dd:ee:ff/24".toList (zero_buf 6) (zero_buf 6)
        = ⟨0, [0xaa, 0xbb, 0xcc, 0xdd, 0xee, 0xff], [0xff, 0xff, 0xff, 0, 0, 0]⟩ ∧
      parse_ipv4_addr_slash_mask "10.0.0.1/24".toList (zero_buf 4) (zero_buf 4)
        = ⟨0, [10, 0, 0, 1], [255, 255, 255, 0]⟩ ∧
      (parse_ipv6_addr_slash_mask "2001:db8::1/64".toList (zero_buf 16) (zero_buf 16)).mask
        = [0xff, 0xff, 0xff, 0xff, 0xff, 0xff, 0xff, 0xff, 0, 0, 0, 0, 0, 0, 0, 0] := by
  decide

/-- C2 (what the code does on the failing inputs): for a zero-filled buffer
of `s` bytes with `8 * s ≤ 255` and a bit count `n < 8 * s` that is not a
multiple of 8 (so `0 < n`), `bitmask_from_int` leaves `0xff` in every byte
after the one holding bit `n`, where the mask with exactly the first `n` bits
set has `0x00`: after the partial byte `mask -= 8` wraps around in `uint8_t`
and the loop goes on writing. -/
theorem C2_bitmask_from_int_overrun (s n j : Nat) (hs : 8 * s ≤ 255)
    (hn : n < 8 * s) (hrem : n % 8 ≠ 0) (hj : n / 8 < j) (hjs : j < s) :
    (bitmask_from_int n (zero_buf s) s)[j]? = some 0xff ∧
      (prefix_mask n s)[j]? = some 0x00 := by
  constructor
  · rw [bitmask_from_int_zero_buf s n j hs (by omega), if_pos hjs, if_pos ⟨hrem, hj⟩]
  · rw [prefix_mask_getElem?, if_pos hjs]
    simp only [prefix_mask_byte]
    rw [if_neg (by omega), if_neg (by omega)]

/-- C2, at the concrete input `n = 4`, `s = 2`: the second byte. -/
theorem C2_bitmask_from_int_overrun_witness :
    (8 * 2 ≤ 255 ∧ 4 < 8 * 2 ∧ 4 % 8 ≠ 0 ∧ 4 / 8 < 1 ∧ 1 < 2) ∧
      ((bitmask_from_int 4 (zero_buf 2) 2)[1]? = some 0xff ∧
        (prefix_mask 4 2)[1]? = some 0x00) :=
  ⟨by decide, C2_bitmask_from_int_overrun 2 4 1 (by decide) (by decide) (by decide) (by decide)
    (by decide)⟩

/-- C3: for each declared width `b` of the integer format tags and each value
`v ≤ 2^b - 1`, `parse_check_and_store_uint` in host order returns 0 and writes
`v` in network order into a field of 1 byte for `b ≤ 8`, 2 bytes for
`8 < b ≤ 16` and 4 bytes otherwise, leaving the rest of the buffer as it was;
decoding the written field as a big-endian integer gives `v` back. -/
theorem C3_store_uint_host_order (b v : Nat) (out : List Nat)
    (hb : b ∈ [1, 3, 6, 8, 12, 16, 20, 32]) (hv : v ≤ 2 ^ b - 1) :
    parse_check_and_store_uint v out b false
        = ⟨0, be_encode (field_size b) v ++ out.drop (field_size b)⟩ ∧
      ((parse_check_and_store_uint v out b false).output.take (field_size b)).length
        = field_size b ∧
      be_decode ((parse_check_and_store_uint v out b false).output.take (field_size b)) = v := by
  have hu := declared_width_facts b hb
  have hf : v < 2 ^ (8 * field_size b) := lt_of_le_of_lt hv hu.2.2
  have hlen : (be_encode (field_size b) v).length = field_size b := be_encode_length _ _
  rw [store_declared b v out hb hv]
  refine ⟨rfl, ?_, ?_⟩
  · simp [hlen]
  · show be_decode ((be_encode (field_size b) v ++ out.drop (field_size b)).take (field_size b)) = v
    rw [List.take_left' hlen]
    unfold field_size at hf ⊢
    by_cases h8 : b ≤ 8
    · simp only [if_pos h8] at hf ⊢
      exact be_decode_encode_1 v (by simpa using hf)
    · by_cases h16 : b ≤ 16
      · simp only [if_neg h8, if_pos h16] at hf ⊢
        exact be_decode_encode_2 v (by simpa using hf)
      · simp only [if_neg h8, if_neg h16] at hf ⊢
        exact be_decode_encode_4 v (by simpa using hf)

/-- C3, at width 12 and value `0xabc`: stored as the two bytes `0x0a 0xbc`. -/
theorem C3_store_uint_host_order_witness :
    (12 ∈ [1, 3, 6, 8, 12, 16, 20, 32] ∧ 0xabc ≤ 2 ^ 12 - 1) ∧
      (parse_check_and_store_uint 0xabc [9, 9, 9, 9] 12 false
          = ⟨0, be_encode (field_size 12) 0xabc ++ [9, 9, 9, 9].drop (field_size 12)⟩ ∧
        ((parse_check_and_store_uint 0xabc [9, 9, 9, 9] 12 false).output.take
            (field_size 12)).length = field_size 12 ∧
        be_decode ((parse_check_and_store_uint 0xabc [9, 9, 9, 9] 12 false).output.take
            (field_size 12)) = 0xabc) :=
  ⟨by decide, C3_store_uint_host_order 12 0xabc [9, 9, 9, 9] (by decide) (by decide)⟩

/-- C4 as stated fails: `2^32` is above `2^32 - 1`, yet handed to
`parse_check_and_store_uint` at width 32 it is converted to the parameter type
`unsigned int`, arrives as 0, passes the check and is stored as four zero
bytes. -/
theorem C4_counterexample :
    2 ^ 32 > 2 ^ 32 - 1 ∧
      parse_check_and_store_uint (2 ^ 32) [9, 9, 9, 9] 32 false = ⟨0, [0, 0, 0, 0]⟩ := by
  decide

/-- C4 amended: for a width `b` in {8, 16, 32} and a value `v` of the
parameter type `unsigned int` (`v < 2^32`) with `v > 2^b - 1`,
`parse_check_and_store_uint` in host order returns -1 and leaves the output
buffer as it was. -/
theorem C4_out_of_range_rejected (b v : Nat) (out : List Nat) (hb : b ∈ [8, 16, 32])
    (hv : v > 2 ^ b - 1) (h32 : v < 2 ^ 32) :
    parse_check_and_store_uint v out b false = ⟨-1, out⟩ := by
  simp only [List.mem_cons, List.mem_singleton, List.not_mem_nil, or_false] at hb
  unfold parse_check_and_store_uint
  simp only [Nat.mod_eq_of_lt h32, Bool.false_eq_true, if_false]
  rcases hb with h | h | h <;> subst h
  · rw [upper_bound_declared 8 (by decide), if_pos hv]
  · rw [upper_bound_declared 16 (by decide), if_pos hv]
  · omega

/-- C4 amended, at width 8 and value 256. -/
theorem C4_out_of_range_rejected_witness :
    (8 ∈ [8, 16, 32] ∧ 256 > 2 ^ 8 - 1 ∧ 256 < 2 ^ 32) ∧
      parse_check_and_store_uint 256 [9] 8 false = ⟨-1, [9]⟩ :=
  ⟨by decide, C4_out_of_range_rejected 8 256 [9] (by decide) (by decide) (by decide)⟩

/-- C5 (what the code does on the failing inputs): with `is_net_byte_order`
set and width 16, a value `0 < v ≤ 2^16 - 1` handed over as its 16-bit
network-order representation `htons v` is rejected, because line 21 undoes the
byte order with the 32-bit `ntohl`; handed over as the 32-bit representation
`htonl v` it passes the check but the 2-byte field receives `00 00`.  With
width 8 and `v ≤ 2^8 - 1` the same happens: `v` itself is rejected and
`htonl v` is stored as `00`. -/
theorem C5_net_order_input_rejected_or_lost (v : Nat) (out : List Nat) (h0 : 0 < v)
    (hv : v ≤ 2 ^ 16 - 1) :
    parse_check_and_store_uint (htons v) out 16 true = ⟨-1, out⟩ ∧
      parse_check_and_store_uint (htonl v) out 16 true = ⟨0, [0, 0] ++ out.drop 2⟩ ∧
      (v ≤ 2 ^ 8 - 1 →
        parse_check_and_store_uint v out 8 true = ⟨-1, out⟩ ∧
          parse_check_and_store_uint (htonl v) out 8 true = ⟨0, [0] ++ out.drop 1⟩) := by
  have h16 : v < 2 ^ 16 := by omega
  have hs : htons v < 2 ^ 32 := by
    simp only [htons, bswap16]
    omega
  have hl := htonl_small v h16
  have hl32 : htonl v < 2 ^ 32 := by omega
  have hnl := ntohl_htonl v (by omega)
  refine ⟨?_, ?_, ?_⟩
  · unfold parse_check_and_store_uint
    simp only [Nat.mod_eq_of_lt hs, if_true, ntohl_htons v h16,
      upper_bound_declared 16 (by decide)]
    rw [if_pos (by omega)]
  · unfold parse_check_and_store_uint
    simp only [Nat.mod_eq_of_lt hl32, if_true, hnl, upper_bound_declared 16 (by decide)]
    rw [if_neg (by omega), if_neg (by omega), if_pos (by omega)]
    simp only [store_u16, memcpy, hl]
    have e1 : (v / 256 * 2 ^ 16 + v % 256 * 2 ^ 24) % 256 = 0 := by omega
    have e2 : (v / 256 * 2 ^ 16 + v % 256 * 2 ^ 24) / 2 ^ 8 % 256 = 0 := by omega
    rw [e1, e2]
    rfl
  · intro h8
    have hv32 : v < 2 ^ 32 := by omega
    have hx : v = 0 * 2 ^ 24 + 0 * 2 ^ 16 + 0 * 2 ^ 8 + v := by omega
    have hn : ntohl v = v * 2 ^ 24 := by
      rw [ntohl, Nat.mod_eq_of_lt hv32]
      conv_lhs => rw [hx]
      rw [bswap32_of_bytes 0 0 0 v (by omega) (by omega) (by omega) (by omega)]
      omega
    constructor
    · unfold parse_check_and_store_uint
      simp only [Nat.mod_eq_of_lt hv32, if_true, hn, upper_bound_declared 8 (by decide)]
      rw [if_pos (by omega)]
    · unfold parse_check_and_store_uint
      simp only [Nat.mod_eq_of_lt hl32, if_true, hnl, upper_bound_declared 8 (by decide)]
      rw [if_neg (by omega), if_pos (by omega)]
      simp only [store_u8, memcpy, hl]
      have e1 : (v / 256 * 2 ^ 16 + v % 256 * 2 ^ 24) % 256 = 0 := by omega
      rw [e1]
      rfl

/-- C5, at `v = 1`: `htons 1 = 0x0100` is rejected at width 16. -/
theorem C5_net_order_input_rejected_or_lost_witness :
    (0 < 1 ∧ 1 ≤ 2 ^ 16 - 1) ∧
      (parse_check_and_store_uint (htons 1) [9, 9] 16 true = ⟨-1, [9, 9]⟩ ∧
        parse_check_and_store_uint (htonl 1) [9, 9] 16 true = ⟨0, [0, 0] ++ [9, 9].drop 2⟩ ∧
        (1 ≤ 2 ^ 8 - 1 →
          parse_check_and_store_uint 1 [9, 9] 8 true = ⟨-1, [9, 9]⟩ ∧
            parse_check_and_store_uint (htonl 1) [9, 9] 8 true = ⟨0, [0] ++ [9, 9].drop 1⟩)) :=
  ⟨by decide, C5_net_order_input_rejected_or_lost 1 [9, 9] (by decide) (by decide)⟩

/-- At width 32 a value handed over in network order is stored as given: the
same bytes as for the value in host order. -/
theorem store_net_order_32 (v : Nat) (out : List Nat) (hv : v < 2 ^ 32) :
    parse_check_and_store_uint (htonl v) out 32 true = ⟨0, be_encode 4 v ++ out.drop 4⟩ := by
  have hl32 : htonl v < 2 ^ 32 := by
    simp only [htonl, bswap32]
    omega
  unfold parse_check_and_store_uint
  simp only [Nat.mod_eq_of_lt hl32, if_true, ntohl_htonl v hv, upper_bound_32]
  rw [if_neg (by omega), if_neg (by omega), if_neg (by omega), store_be_u32 _ _ hv]

/-- C6 (what the code does on the failing inputs): for a width `b` in
{8, 16, 32}, a text that is exactly one numeral of value `v` with
`2^32 ≤ v ≤ 2^64 - 1` is not rejected by `parse_uint` when `v mod 2^32` is at
most `2^b - 1`: the `unsigned long` result of `strtoul` is cut to
`unsigned int` before the bound check, and `v mod 2^32` is stored. -/
theorem C6_numeral_above_uint_accepted (b : Nat) (text : List Char) (v : Nat)
    (out : List Nat) (hb : b ∈ [8, 16, 32]) (hN : literal_value text = some v)
    (hlo : 2 ^ 32 ≤ v) (hhi : v ≤ 2 ^ 64 - 1) (hw : v % 2 ^ 32 ≤ 2 ^ b - 1) :
    v > 2 ^ b - 1 ∧
      parse_uint text out b
        = ⟨0, be_encode (b / 8) (v % 2 ^ 32) ++ out.drop (b / 8)⟩ := by
  obtain ⟨hb', hfs⟩ := width_field_size b hb
  have hu := declared_width_facts b hb'
  refine ⟨by omega, ?_⟩
  rw [parse_uint_literal_wraps text v b out hN hhi, ← hfs]
  exact store_declared b _ out hb' hw

/-- C6, at the numeral `4294967296`, that is `2^32`, and width 8: accepted and
stored as the byte `0x00`. -/
theorem C6_numeral_above_uint_accepted_witness :
    (8 ∈ [8, 16, 32] ∧ literal_value "4294967296".toList = some 4294967296 ∧
        2 ^ 32 ≤ 4294967296 ∧ 4294967296 ≤ 2 ^ 64 - 1 ∧ 4294967296 % 2 ^ 32 ≤ 2 ^ 8 - 1) ∧
      (4294967296 > 2 ^ 8 - 1 ∧
        parse_uint "4294967296".toList [9, 9] 8
          = ⟨0, be_encode (8 / 8) (4294967296 % 2 ^ 32) ++ [9, 9].drop (8 / 8)⟩) :=
  ⟨by decide, C6_numeral_above_uint_accepted 8 "4294967296".toList 4294967296 [9, 9]
    (by decide) (by decide) (by decide) (by decide) (by decide)⟩

/-- The numeral `4294967296` is accepted at each of the widths 8, 16 and 32
and stored as zero; `0x100000001` is stored as 1. -/
theorem numeral_above_uint_examples :
    parse_uint "4294967296".toList [9, 9, 9, 9] 8 = ⟨0, [0, 9, 9, 9]⟩ ∧
      parse_uint "4294967296".toList [9, 9, 9, 9] 16 = ⟨0, [0, 0, 9, 9]⟩ ∧
      parse_uint "4294967296".toList [9, 9, 9, 9] 32 = ⟨0, [0, 0, 0, 0]⟩ ∧
      parse_uint "0x100000001".toList [9, 9, 9, 9] 8 = ⟨0, [1, 9, 9, 9]⟩ := by
  decide

/-- C7 as stated fails: no prefix of the text ` 12` is a numeral, so all three
of its characters remain after the longest numeral prefix, yet `parse_uint`
accepts it at width 8 and stores 12: `strtoul` skips the leading blank. -/
theorem C7_counterexample :
    longest_numeral_prefix " 12".toList = 0 ∧ 0 < " 12".toList.length ∧
      parse_uint " 12".toList [9] 8 = ⟨0, [12]⟩ := by
  decide

/-- C7 amended: for a width `b` in {8, 16, 32}, (1) a text that is exactly a
decimal numeral without leading zero, a `0x`/`0X` hexadecimal numeral or a
`0`-prefixed octal numeral, of value `v ≤ 2^b - 1`, is accepted by `parse_uint`
and `v` is stored as a `b/8`-byte network-order field; (2) a text `N ++ rest`
in which `N` is a numeral, `rest` is not empty and no longer prefix
`N ++ rest.take (k+1)` is a numeral (the text begins with a numeral and at
least one character remains after its longest numeral prefix) is rejected,
with the output buffer untouched; (3) a text that is accepted is empty or made
of white space, at most one sign and one numeral, in this order. -/
theorem C7_parse_uint_numerals (b : Nat) (hb : b ∈ [8, 16, 32]) :
    (∀ (text : List Char) (v : Nat) (out : List Nat),
        literal_value text = some v → v ≤ 2 ^ b - 1 →
        parse_uint text out b = ⟨0, be_encode (b / 8) v ++ out.drop (b / 8)⟩) ∧
      (∀ (N rest : List Char) (out : List Nat),
        (literal_value N).isSome = true → rest ≠ [] →
        (∀ k < rest.length, literal_value (N ++ rest.take (k + 1)) = none) →
        parse_uint (N ++ rest) out b = ⟨-1, out⟩) ∧
      (∀ (text : List Char) (out : List Nat), (parse_uint text out b).ret = 0 →
        text = [] ∨ ∃ ws sg N, text = ws ++ sg ++ N ∧ ws.all isspace = true ∧
          (sg = [] ∨ sg = ['+'] ∨ sg = ['-']) ∧ (literal_value N).isSome = true) := by
  obtain ⟨hb', hfs⟩ := width_field_size b hb
  refine ⟨?_, ?_, ?_⟩
  · intro text v out hN hv
    rw [← hfs]
    exact parse_uint_literal text v b out hb' hN hv
  · intro N rest out hN hrest hlong
    cases N with
    | nil => simp [literal_value] at hN
    | cons c cs =>
      have hc : ∃ d, digit_value c = some d := by
        unfold literal_value at hN
        by_cases h0 : c = '0'
        · subst h0
          exact ⟨0, by decide⟩
        · simp only [if_neg h0] at hN
          by_cases hd : all_digits 10 (c :: cs) = true
          · simp only [all_digits, List.all_cons, Bool.and_eq_true] at hd
            cases hd' : digit_value c with
            | none => simp [hd'] at hd
            | some d => exact ⟨d, rfl⟩
          · simp [if_neg hd] at hN
      obtain ⟨d, hd⟩ := hc
      have hlen : 0 < rest.length := List.length_pos.mpr hrest
      have hnot : ¬ (c :: cs ++ rest).length ≤ (strtoul_digits (c :: cs ++ rest) 0 false 0).2 := by
        intro hfull
        have hlit := strtoul_digits_full (c :: cs ++ rest) false 0 (by simp)
          (by rw [Nat.zero_add]; exact hfull)
        have hnone := hlong (rest.length - 1) (by omega)
        rw [show rest.length - 1 + 1 = rest.length by omega, List.take_length] at hnone
        rw [hnone] at hlit
        exact Bool.noConfusion hlit
      unfold parse_uint
      rw [List.cons_append, strtoul_digit_start c _ 0 d hd]
      have hder : deref (c :: (cs ++ rest)) (strtoul_digits (c :: (cs ++ rest)) 0 false 0).2
          ≠ none := by
        unfold deref
        rw [ne_eq, List.get?_eq_none]
        exact hnot
      simp only [hder, ne_eq, not_false_eq_true, if_true]
  · intro text out h
    exact parse_uint_accepts_shape text out b h

/-- C7 amended, at width 8: `0x1f` is stored as the byte 31, and `12ab`, whose
longest numeral prefix is `12`, is rejected. -/
theorem C7_parse_uint_numerals_witness :
    8 ∈ [8, 16, 32] ∧
      parse_uint "0x1f".toList [9] 8 = ⟨0, be_encode (8 / 8) 31 ++ [9].drop (8 / 8)⟩ ∧
      parse_uint ("12".toList ++ "ab".toList) [9] 8 = ⟨-1, [9]⟩ :=
  ⟨by decide, (C7_parse_uint_numerals 8 (by decide)).1 "0x1f".toList 31 [9] (by decide)
      (by decide),
    (C7_parse_uint_numerals 8 (by decide)).2.1 "12".toList "ab".toList [9] (by decide)
      (by decide) (by decide)⟩

/-- C8: for a width `b` in {8, 16, 32}, a decimal numeral `V` and a numeral `M`
(decimal, hexadecimal or octal), both of value at most `2^b - 1`,
`parse_uint_slash_mask` on the text `V/M` returns 0, stores the value of `V` in
the output field and the value of `M` in the mask buffer, each as a `b/8`-byte
network-order field, and leaves the rest of both buffers as it was. -/
theorem C8_uint_slash_mask (b : Nat) (V M : List Char) (m : Nat) (out mask : List Nat)
    (hb : b ∈ [8, 16, 32]) (hne : V ≠ []) (hV : all_digits 10 V = true)
    (hv : numeral_value 10 V ≤ 2 ^ b - 1) (hM : literal_value M = some m)
    (hm : m ≤ 2 ^ b - 1) :
    parse_uint_slash_mask (V ++ '/' :: M) out b mask
      = ⟨0, be_encode (b / 8) (numeral_value 10 V) ++ out.drop (b / 8),
          be_encode (b / 8) m ++ mask.drop (b / 8)⟩ := by
  obtain ⟨hb', hfs⟩ := width_field_size b hb
  have hu := declared_width_facts b hb'
  have h32 : numeral_value 10 V < 2 ^ 32 := lt_of_le_of_lt hv hu.1
  have hslash := strchr_append V M '/' (all_digits_no_slash 10 V hV)
  have hdrop : (V ++ '/' :: M).drop (V.length + 1) = M := by
    rw [show V ++ '/' :: M = (V ++ ['/']) ++ M by simp]
    exact List.drop_left' (by simp)
  have hstop : stops ('/' :: M) = true := rfl
  have hst := strtoul_decimal V ('/' :: M) hne hV hstop (by unfold ULONG_MAX; omega)
  unfold parse_uint_slash_mask
  simp only [hslash, hdrop, parse_uint_literal M m b mask hb' hM hm, hst, ne_eq,
    not_true_eq_false, and_false, if_false, Nat.mod_eq_of_lt h32,
    store_declared b _ out hb' hv, hfs]

/-- C8, at the example of the specification: `10/0xf` at width 8 gives the
value 10 and the mask `0x0f`. -/
theorem C8_uint_slash_mask_witness :
    (8 ∈ [8, 16, 32] ∧ "10".toList ≠ [] ∧ all_digits 10 "10".toList = true ∧
        numeral_value 10 "10".toList ≤ 2 ^ 8 - 1 ∧ literal_value "0xf".toList = some 15 ∧
        15 ≤ 2 ^ 8 - 1) ∧
      parse_uint_slash_mask ("10".toList ++ '/' :: "0xf".toList) [9] 8 [0xff]
        = ⟨0, be_encode (8 / 8) (numeral_value 10 "10".toList) ++ [9].drop (8 / 8),
            be_encode (8 / 8) 15 ++ [0xff].drop (8 / 8)⟩ :=
  ⟨by decide, C8_uint_slash_mask 8 "10".toList "0xf".toList 15 [9] [0xff] (by decide)
    (by decide) (by decide) (by decide) (by decide) (by decide)⟩

/-- C9: on a text without `/` each of `parse_uint_slash_mask`,
`parse_eth_addr_slash_mask`, `parse_ipv4_addr_slash_mask` and
`parse_ipv6_addr_slash_mask` leaves the mask buffer exactly as it was before
the call, whether the call succeeds or fails. -/
theorem C9_mask_kept_without_slash (input : List Char) (out mask : List Nat) (b : Nat)
    (h : '/' ∉ input) :
    (parse_uint_slash_mask input out b mask).mask = mask ∧
      (parse_eth_addr_slash_mask input out mask).mask = mask ∧
      (parse_ipv4_addr_slash_mask input out mask).mask = mask ∧
      (parse_ipv6_addr_slash_mask input out mask).mask = mask := by
  have hs := strchr_none input '/' h
  refine ⟨?_, ?_, ?_, ?_⟩
  · unfold parse_uint_slash_mask
    simp only [hs]
    split_ifs <;> rfl
  · unfold parse_eth_addr_slash_mask
    simp only [hs]
    split_ifs <;> rfl
  · unfold parse_ipv4_addr_slash_mask parse_ip_addr_slash_mask
    simp only [hs]
    split_ifs <;> rfl
  · unfold parse_ipv6_addr_slash_mask parse_ip_addr_slash_mask
    simp only [hs]
    split_ifs <;> rfl

/-- C9, on the text `zz`, which every parser rejects, with an all-ones mask;
`17` shows an accepted text for `parse_uint_slash_mask`. -/
theorem C9_mask_kept_without_slash_witness :
    ('/' ∉ "zz".toList ∧
      ((parse_uint_slash_mask "zz".toList [9, 9] 8 [0xff, 0xff]).mask = [0xff, 0xff] ∧
        (parse_eth_addr_slash_mask "zz".toList [9, 9] [0xff, 0xff]).mask = [0xff, 0xff] ∧
        (parse_ipv4_addr_slash_mask "zz".toList [9, 9] [0xff, 0xff]).mask = [0xff, 0xff] ∧
        (parse_ipv6_addr_slash_mask "zz".toList [9, 9] [0xff, 0xff]).mask = [0xff, 0xff])) ∧
      (parse_uint_slash_mask "17".toList [9, 9] 8 [0xff, 0xff]).ret = 0 ∧
      (parse_uint_slash_mask "zz".toList [9, 9] 8 [0xff, 0xff]).ret = -1 :=
  ⟨⟨by decide, C9_mask_kept_without_slash "zz".toList [9, 9] [0xff, 0xff] 8 (by decide)⟩,
    by decide, by decide⟩

/-- C10 (what the code does at the failing input): `parse_eth_addr` accepts
`aa:bb:cc:dd:ee:f`, whose last octet has one digit, but
`parse_eth_addr_slash_mask` rejects `aa:bb:cc:dd:ee:f/24` and
`aa:bb:cc:dd:ee:f/ff:ff:ff:00:00:00`, because it hands the whole text, suffix
included, to `parse_eth_addr`; with a two-digit last octet the same suffixes
are accepted. -/
theorem C10_address_part_not_isolated :
    parse_eth_addr "aa:bb:cc:dd:ee:f".toList (zero_buf 6)
        = ⟨0, [0xaa, 0xbb, 0xcc, 0xdd, 0xee, 0x0f]⟩ ∧
      parse_eth_addr_slash_mask "aa:bb:cc:dd:ee:f/24".toList (zero_buf 6) (zero_buf 6)
        = ⟨-1, zero_buf 6, [0xff, 0xff, 0xff, 0, 0, 0]⟩ ∧
      parse_eth_addr_slash_mask "aa:bb:cc:dd:ee:f/ff:ff:ff:00:00:00".toList (zero_buf 6)
          (zero_buf 6)
        = ⟨-1, zero_buf 6, [0xff, 0xff, 0xff, 0, 0, 0]⟩ ∧
      parse_eth_addr "aa:bb:cc:dd:ee:f/24".toList (zero_buf 6) = ⟨-1, zero_buf 6⟩ ∧
      parse_eth_addr_slash_mask "aa:bb:cc:dd:ee:0f/24".toList (zero_buf 6) (zero_buf 6)
        = ⟨0, [0xaa, 0xbb, 0xcc, 0xdd, 0xee, 0x0f], [0xff, 0xff, 0xff, 0, 0, 0]⟩ := by
  decide

/-- C11: for a text `A/P` split at its first `/`, `parse_ipv4_addr_slash_mask`
returns 0 exactly when `parse_slash_prefix_mask` accepts `P` as a prefix length
(bound 32) and `parse_ipv4_addr` accepts `A` alone, and then the output buffer
is the one `parse_ipv4_addr` leaves for `A`; the same for
`parse_ipv6_addr_slash_mask` with the bound 128 and `parse_ipv6_addr`. -/
theorem C11_ip_slash_mask_refines (A P : List Char) (out mask : List Nat) (hA : '/' ∉ A) :
    (((parse_ipv4_addr_slash_mask (A ++ '/' :: P) out mask).ret = 0 ↔
          (parse_slash_prefix_mask P mask 32).ret = 0 ∧ (parse_ipv4_addr A out).ret = 0) ∧
        ((parse_ipv4_addr_slash_mask (A ++ '/' :: P) out mask).ret = 0 →
          (parse_ipv4_addr_slash_mask (A ++ '/' :: P) out mask).output
            = (parse_ipv4_addr A out).output)) ∧
      (((parse_ipv6_addr_slash_mask (A ++ '/' :: P) out mask).ret = 0 ↔
          (parse_slash_prefix_mask P mask 128).ret = 0 ∧ (parse_ipv6_addr A out).ret = 0) ∧
        ((parse_ipv6_addr_slash_mask (A ++ '/' :: P) out mask).ret = 0 →
          (parse_ipv6_addr_slash_mask (A ++ '/' :: P) out mask).output
            = (parse_ipv6_addr A out).output)) :=
  ⟨ip_slash_mask_refines AF_INET A P out mask hA, ip_slash_mask_refines AF_INET6 A P out mask hA⟩

/-- C11, at the example of the specification: `10.0.0.1/24` gives the address
bytes 10, 0, 0, 1, those of `parse_ipv4_addr` on `10.0.0.1`. -/
theorem C11_ip_slash_mask_refines_witness :
    '/' ∉ "10.0.0.1".toList ∧
      (parse_ipv4_addr_slash_mask ("10.0.0.1".toList ++ '/' :: "24".toList) (zero_buf 4)
          (zero_buf 4)).ret = 0 ∧
      (parse_ipv4_addr_slash_mask ("10.0.0.1".toList ++ '/' :: "24".toList) (zero_buf 4)
          (zero_buf 4)).output = (parse_ipv4_addr "10.0.0.1".toList (zero_buf 4)).output ∧
      (parse_ipv4_addr "10.0.0.1".toList (zero_buf 4)).output = [10, 0, 0, 1] :=
  ⟨by decide,
    (C11_ip_slash_mask_refines "10.0.0.1".toList "24".toList (zero_buf 4) (zero_buf 4)
      (by decide)).1.1.mpr (by decide),
    (C11_ip_slash_mask_refines "10.0.0.1".toList "24".toList (zero_buf 4) (zero_buf 4)
      (by decide)).1.2 (by decide),
    by decide⟩

/-- C12 (what the code does on the failing inputs): a decimal prefix length
`P` of value `v` with `2^32 ≤ v ≤ 2^64 - 1` and `v mod 2^32 ≤ 32` is far above
every family's bit width, yet none of the three parsers rejects it: the
`unsigned long` result of `strtoul` is cut to `unsigned int` before the
comparison with the bound, so the text `A/P` is treated as `A` with the prefix
length `v mod 2^32`, and the status is that of the address parser. -/
theorem C12_prefix_length_wraps (A P : List Char) (v : Nat) (out mask : List Nat)
    (hA : '/' ∉ A) (hP : literal_value P = some v) (hP10 : all_digits 10 P = true)
    (hv10 : numeral_value 10 P = v) (hlo : 2 ^ 32 ≤ v) (hhi : v ≤ 2 ^ 64 - 1)
    (hw : v % 2 ^ 32 ≤ 32) :
    v > 128 ∧
      parse_eth_addr_slash_mask (A ++ '/' :: P) out mask
        = ⟨(parse_eth_addr (A ++ '/' :: P) out).ret, (parse_eth_addr (A ++ '/' :: P) out).output,
            bitmask_from_int (v % 2 ^ 32) mask 6⟩ ∧
      parse_ipv4_addr_slash_mask (A ++ '/' :: P) out mask
        = ⟨(parse_ipv4_addr A out).ret, (parse_ipv4_addr A out).output,
            bitmask_from_int (v % 2 ^ 32) mask 4⟩ ∧
      parse_ipv6_addr_slash_mask (A ++ '/' :: P) out mask
        = ⟨(parse_ipv6_addr A out).ret, (parse_ipv6_addr A out).output,
            bitmask_from_int (v % 2 ^ 32) mask 16⟩ := by
  have hne : P ≠ [] := by
    intro h
    subst h
    simp [literal_value] at hP
  refine ⟨by omega, ?_, ?_, ?_⟩
  · rw [parse_eth_addr_slash_mask_decimal A P out mask hA hne hP10 (by rw [hv10]; exact hhi),
      hv10, if_neg (by omega)]
  · have hm : parse_slash_prefix_mask P mask 32
        = ⟨0, bitmask_from_int (v % 2 ^ 32) mask 4⟩ := by
      rw [parse_slash_prefix_mask_literal P v 32 mask hP hhi, if_neg (by omega)]
    unfold parse_ipv4_addr_slash_mask parse_ipv4_addr
    rw [parse_ip_addr_slash_mask_split AF_INET A P out mask hA]
    simp only [if_true, hm]
    simp
  · have hm : parse_slash_prefix_mask P mask 128
        = ⟨0, bitmask_from_int (v % 2 ^ 32) mask 16⟩ := by
      rw [parse_slash_prefix_mask_literal P v 128 mask hP hhi, if_neg (by omega)]
    unfold parse_ipv6_addr_slash_mask parse_ipv6_addr
    rw [parse_ip_addr_slash_mask_split AF_INET6 A P out mask hA]
    have hf : (if AF_INET6 = AF_INET then 32 else 128) = 128 := by decide
    simp only [hf, hm]
    simp

/-- C12, at the prefix length `4294967296`, that is `2^32`: `10.0.0.1/4294967296`
is accepted with the mask left as for `/0`. -/
theorem C12_prefix_length_wraps_witness :
    ('/' ∉ "10.0.0.1".toList ∧ literal_value "4294967296".toList = some 4294967296 ∧
        all_digits 10 "4294967296".toList = true ∧
        numeral_value 10 "4294967296".toList = 4294967296 ∧ 2 ^ 32 ≤ 4294967296 ∧
        4294967296 ≤ 2 ^ 64 - 1 ∧ 4294967296 % 2 ^ 32 ≤ 32) ∧
      parse_ipv4_addr_slash_mask ("10.0.0.1".toList ++ '/' :: "4294967296".toList)
          (zero_buf 4) (zero_buf 4)
        = ⟨(parse_ipv4_addr "10.0.0.1".toList (zero_buf 4)).ret,
            (parse_ipv4_addr "10.0.0.1".toList (zero_buf 4)).output,
            bitmask_from_int (4294967296 % 2 ^ 32) (zero_buf 4) 4⟩ ∧
      (parse_ipv4_addr "10.0.0.1".toList (zero_buf 4)).ret = 0 :=
  ⟨by decide,
    (C12_prefix_length_wraps "10.0.0.1".toList "4294967296".toList 4294967296 (zero_buf 4)
      (zero_buf 4) (by decide) (by decide) (by decide) (by decide) (by decide) (by decide)
      (by decide)).2.2.1,
    by decide⟩

/-- The three parsers on a prefix length of `2^32`: each returns 0. -/
theorem prefix_length_above_uint_examples :
    parse_eth_addr_slash_mask "aa:bb:cc:dd:ee:ff/4294967296".toList (zero_buf 6) (zero_buf 6)
        = ⟨0, [0xaa, 0xbb, 0xcc, 0xdd, 0xee, 0xff], zero_buf 6⟩ ∧
      parse_ipv4_addr_slash_mask "10.0.0.1/4294967296".toList (zero_buf 4) (zero_buf 4)
        = ⟨0, [10, 0, 0, 1], zero_buf 4⟩ ∧
      (parse_ipv6_addr_slash_mask "2001:db8::1/4294967296".toList (zero_buf 16)
        (zero_buf 16)).ret = 0 ∧
      (parse_ipv4_addr_slash_mask "10.0.0.1/4294967320".toList (zero_buf 4) (zero_buf 4)).mask
        = [0xff, 0xff, 0xff, 0] := by
  decide

/-- C13 (what the code does at the failing input): `aa:bb:cc:dd:ee:f` and
`ff:ff:ff:00:00:00` are both hardware address literals for `ether_aton`, yet
`parse_eth_addr_slash_mask` rejects `aa:bb:cc:dd:ee:f/ff:ff:ff:00:00:00`,
after copying the mask: the whole text, suffix included, goes to
`parse_eth_addr`, and the `/` after the one-digit last octet is read as a
second digit.  With the last octet written `0f` the call succeeds, the mask is
the six octets of the suffix and the mask byte at index 6 is untouched. -/
theorem C13_address_literal_mask_rejected :
    ether_aton "aa:bb:cc:dd:ee:f".toList = some [0xaa, 0xbb, 0xcc, 0xdd, 0xee, 0x0f] ∧
      ether_aton "ff:ff:ff:00:00:00".toList = some [0xff, 0xff, 0xff, 0, 0, 0] ∧
      parse_eth_addr_slash_mask "aa:bb:cc:dd:ee:f/ff:ff:ff:00:00:00".toList
          [9, 9, 9, 9, 9, 9, 9] [7, 7, 7, 7, 7, 7, 7]
        = ⟨-1, [9, 9, 9, 9, 9, 9, 9], [0xff, 0xff, 0xff, 0, 0, 0, 7]⟩ ∧
      parse_eth_addr_slash_mask "aa:bb:cc:dd:ee:0f/ff:ff:ff:00:00:00".toList
          [9, 9, 9, 9, 9, 9, 9] [7, 7, 7, 7, 7, 7, 7]
        = ⟨0, [0xaa, 0xbb, 0xcc, 0xdd, 0xee, 0x0f, 9], [0xff, 0xff, 0xff, 0, 0, 0, 7]⟩ := by
  decide

/-- C14: on a text `A/S` whose suffix `S` contains a `.` or a `:` (a dotted
IPv4 literal, a colon-separated IPv6 literal), `parse_ipv4_addr_slash_mask` and
`parse_ipv6_addr_slash_mask` return -1, whatever `A` is, and leave the output
and the mask buffers as they were. -/
theorem C14_address_shaped_mask_rejected (A S : List Char) (out mask : List Nat)
    (hA : '/' ∉ A) (hS : '.' ∈ S ∨ ':' ∈ S) :
    parse_ipv4_addr_slash_mask (A ++ '/' :: S) out mask = ⟨-1, out, mask⟩ ∧
      parse_ipv6_addr_slash_mask (A ++ '/' :: S) out mask = ⟨-1, out, mask⟩ := by
  constructor
  · unfold parse_ipv4_addr_slash_mask
    rw [parse_ip_addr_slash_mask_split AF_INET A S out mask hA,
      parse_slash_prefix_mask_address_shaped S mask _ hS]
    rfl
  · unfold parse_ipv6_addr_slash_mask
    rw [parse_ip_addr_slash_mask_split AF_INET6 A S out mask hA,
      parse_slash_prefix_mask_address_shaped S mask _ hS]
    rfl

/-- C14, on `10.0.0.1/255.255.255.0`, whose address part is valid. -/
theorem C14_address_shaped_mask_rejected_witness :
    ('/' ∉ "10.0.0.1".toList ∧
        ('.' ∈ "255.255.255.0".toList ∨ ':' ∈ "255.255.255.0".toList)) ∧
      (parse_ipv4_addr_slash_mask ("10.0.0.1".toList ++ '/' :: "255.255.255.0".toList)
          (zero_buf 4) [0xff, 0xff, 0xff, 0xff]
        = ⟨-1, zero_buf 4, [0xff, 0xff, 0xff, 0xff]⟩ ∧
        parse_ipv6_addr_slash_mask ("10.0.0.1".toList ++ '/' :: "255.255.255.0".toList)
          (zero_buf 4) [0xff, 0xff, 0xff, 0xff]
        = ⟨-1, zero_buf 4, [0xff, 0xff, 0xff, 0xff]⟩) ∧
      (parse_ipv4_addr "10.0.0.1".toList (zero_buf 4)).ret = 0 :=
  ⟨by decide, C14_address_shaped_mask_rejected "10.0.0.1".toList "255.255.255.0".toList
    (zero_buf 4) [0xff, 0xff, 0xff, 0xff] (by decide) (by decide), by decide⟩


/-- C15: for a text that `ether_aton` rejects, `parse_eth_addr` returns -1 and
leaves the output buffer as it was; every text that is empty or whose first
character is not a hexadecimal digit is such a text. -/
theorem C15_rejected_address_untouched (input : List Char) (out : List Nat) :
    (ether_aton input = none → parse_eth_addr input out = ⟨-1, out⟩) ∧
      ((∀ c ∈ input.head?, hex_digit_value c = none) →
        ether_aton input = none ∧ parse_eth_addr input out = ⟨-1, out⟩) := by
  have key : ether_aton input = none → parse_eth_addr input out = ⟨-1, out⟩ := by
    intro h
    unfold parse_eth_addr
    rw [h]
  exact ⟨key, fun h => ⟨ether_aton_first_char input h, key (ether_aton_first_char input h)⟩⟩

/-- C15, on the example of the specification: `not-a-mac` starts with `n`,
no hexadecimal digit, and is rejected with the buffer untouched. -/
theorem C15_rejected_address_untouched_witness :
    (∀ c ∈ "not-a-mac".toList.head?, hex_digit_value c = none) ∧
      ether_aton "not-a-mac".toList = none ∧
      parse_eth_addr "not-a-mac".toList [1, 2, 3, 4, 5, 6] = ⟨-1, [1, 2, 3, 4, 5, 6]⟩ :=
  ⟨by decide,
    (C15_rejected_address_untouched "not-a-mac".toList [1, 2, 3, 4, 5, 6]).2 (by decide)⟩


/-- C16: for a declared width `b`, a value portion `0x` or `0X` followed by at
least one hexadecimal digit is rejected by `parse_uint_slash_mask`, alone and
with any `/S` suffix, with the output buffer untouched, although `parse_uint`
accepts the same value portion when its value is within the width; a text
without slash that is a decimal numeral without leading zero and within the
width is accepted by both, which store the same bytes. -/
theorem C16_value_portion_decimal_only (b : Nat) (x : Char) (hs S D : List Char)
    (out mask : List Nat) (hb : b ∈ [1, 3, 6, 8, 12, 16, 20, 32]) (hx : x = 'x' ∨ x = 'X')
    (hne : hs ≠ []) (hh : all_digits 16 hs = true) :
    ((parse_uint_slash_mask ('0' :: x :: hs) out b mask).ret = -1 ∧
        (parse_uint_slash_mask ('0' :: x :: hs) out b mask).output = out) ∧
      ((parse_uint_slash_mask (('0' :: x :: hs) ++ '/' :: S) out b mask).ret = -1 ∧
        (parse_uint_slash_mask (('0' :: x :: hs) ++ '/' :: S) out b mask).output = out) ∧
      (numeral_value 16 hs ≤ 2 ^ b - 1 →
        parse_uint ('0' :: x :: hs) out b
          = ⟨0, be_encode (field_size b) (numeral_value 16 hs) ++ out.drop (field_size b)⟩) ∧
      (D ≠ [] → all_digits 10 D = true → D.head? ≠ some '0' →
        numeral_value 10 D ≤ 2 ^ b - 1 →
        parse_uint D out b
            = ⟨0, be_encode (field_size b) (numeral_value 10 D) ++ out.drop (field_size b)⟩ ∧
          parse_uint_slash_mask D out b mask
            = ⟨0, be_encode (field_size b) (numeral_value 10 D) ++ out.drop (field_size b),
                mask⟩) := by
  refine ⟨parse_uint_slash_mask_0x x hs out mask b hx, ?_, ?_, ?_⟩
  · exact parse_uint_slash_mask_0x x (hs ++ '/' :: S) out mask b hx
  · intro hv
    have hlit : literal_value ('0' :: x :: hs) = some (numeral_value 16 hs) := by
      simp [literal_value, hx, hne, hh]
    exact parse_uint_literal _ _ b out hb hlit hv
  · intro hD hall h0 hv
    exact ⟨parse_uint_literal D _ b out hb (literal_value_decimal D hD hall h0) hv,
      parse_uint_slash_mask_decimal D b out mask hb hD hall hv⟩

/-- C16, at width 8: `0x10` and `0x10/0xf` are rejected by
`parse_uint_slash_mask` while `parse_uint` stores `0x10` as 16; `17` is stored
as 17 by both. -/
theorem C16_value_portion_decimal_only_witness :
    (8 ∈ [1, 3, 6, 8, 12, 16, 20, 32] ∧ ('x' = 'x' ∨ 'x' = 'X') ∧ "10".toList ≠ [] ∧
        all_digits 16 "10".toList = true) ∧
      (parse_uint_slash_mask "0x10".toList [9] 8 [0xff]).ret = -1 ∧
      (parse_uint_slash_mask "0x10/0xf".toList [9] 8 [0xff]).ret = -1 ∧
      parse_uint "0x10".toList [9] 8 = ⟨0, [16]⟩ ∧
      parse_uint "17".toList [9] 8 = ⟨0, [17]⟩ ∧
      parse_uint_slash_mask "17".toList [9] 8 [0xff] = ⟨0, [17], [0xff]⟩ :=
  have h := C16_value_portion_decimal_only 8 'x' "10".toList "0xf".toList "17".toList [9]
    [0xff] (by decide) (by decide) (by decide) (by decide)
  ⟨by decide, h.1.1, h.2.1.1, h.2.2.1 (by decide),
    (h.2.2.2 (by decide) (by decide) (by decide) (by decide)).1,
    (h.2.2.2 (by decide) (by decide) (by decide) (by decide)).2⟩


/-- C17: for a zero-filled buffer of `s` bytes with `8 * s ≤ 255`,
`bitmask_from_int` with the bit count 0 leaves all `s` bytes `0x00` and with
the bit count `8 * s` leaves all `s` bytes `0xff`. -/
theorem C17_bitmask_from_int_extremes (s : Nat) (hs : 8 * s ≤ 255) :
    bitmask_from_int 0 (zero_buf s) s = List.replicate s 0x00 ∧
      bitmask_from_int (8 * s) (zero_buf s) s = List.replicate s 0xff := by
  constructor
  · apply List.ext_getElem?
    intro j
    rw [bitmask_from_int_zero_buf s 0 j hs (by omega), List.getElem?_replicate]
    by_cases hj : j < s
    · rw [if_pos hj, if_pos hj, if_neg (by omega)]
      simp [prefix_mask_byte]
    · rw [if_neg hj, if_neg hj]
  · apply List.ext_getElem?
    intro j
    rw [bitmask_from_int_zero_buf s (8 * s) j hs (by omega), List.getElem?_replicate]
    by_cases hj : j < s
    · rw [if_pos hj, if_pos hj, if_neg (by omega)]
      simp only [prefix_mask_byte]
      rw [if_pos (by omega)]
    · rw [if_neg hj, if_neg hj]

/-- C17, for the 4 bytes of an IPv4 mask: `/0` gives `00 00 00 00` and `/32`
gives `ff ff ff ff`. -/
theorem C17_bitmask_from_int_extremes_witness :
    8 * 4 ≤ 255 ∧ bitmask_from_int 0 (zero_buf 4) 4 = [0, 0, 0, 0] ∧
      bitmask_from_int (8 * 4) (zero_buf 4) 4 = [0xff, 0xff, 0xff, 0xff] :=
  ⟨by decide, (C17_bitmask_from_int_extremes 4 (by decide)).1,
    (C17_bitmask_from_int_extremes 4 (by decide)).2⟩

/-- C18 (what the code computes): the bound of line 23 equals `2^nb_bits - 1`
for `1 ≤ nb_bits ≤ 30`, but not at 31 and 32, where `2 << (nb_bits - 1)` does
not fit a 32-bit `int`: at 31 the shift gives `INT_MIN`, which the conversion
to `unsigned long` sign-extends, so the bound is `2^64 - 2^31 - 1`; at 32 the
shift gives 0 and the bound is `2^64 - 1`.  At width 31 the value `2^31` is
therefore accepted. -/
theorem C18_upper_bound_overflows :
    (∀ nb_bits, 1 ≤ nb_bits → nb_bits ≤ 30 → upper_bound nb_bits = 2 ^ nb_bits - 1) ∧
      upper_bound 31 = 2 ^ 64 - 2 ^ 31 - 1 ∧ upper_bound 31 ≠ 2 ^ 31 - 1 ∧
      upper_bound 32 = 2 ^ 64 - 1 ∧ upper_bound 32 ≠ 2 ^ 32 - 1 ∧
      2 ^ 31 > 2 ^ 31 - 1 ∧
      parse_check_and_store_uint (2 ^ 31) [9, 9, 9, 9] 31 false = ⟨0, [0x80, 0, 0, 0]⟩ := by
  refine ⟨?_, by decide, by decide, by decide, by decide, by decide, by decide⟩
  intro nb h1 h30
  interval_cases nb <;> decide


/-- C20: whenever `parse_check_and_store_uint`, `parse_uint`,
`parse_uint_slash_mask` or `parse_eth_addr_slash_mask` returns -1, the value or
address output buffer is exactly as it was before the call. -/
theorem C20_output_kept_on_failure (val : Nat) (input : List Char) (out mask : List Nat)
    (b : Nat) (net : Bool) :
    ((parse_check_and_store_uint val out b net).ret = -1 →
        (parse_check_and_store_uint val out b net).output = out) ∧
      ((parse_uint input out b).ret = -1 → (parse_uint input out b).output = out) ∧
      ((parse_uint_slash_mask input out b mask).ret = -1 →
        (parse_uint_slash_mask input out b mask).output = out) ∧
      ((parse_eth_addr_slash_mask input out mask).ret = -1 →
        (parse_eth_addr_slash_mask input out mask).output = out) := by
  have hne : ∀ r : Int, r = -1 → r ≠ 0 := by
    intro r h
    rw [h]
    decide
  exact ⟨fun h => parse_check_and_store_uint_fail val out b net (hne _ h),
    fun h => parse_uint_fail input out b (hne _ h),
    fun h => parse_uint_slash_mask_fail input out mask b (hne _ h),
    fun h => parse_eth_addr_slash_mask_fail input out mask (hne _ h)⟩

/-- C20, on calls that fail: the value 256 at width 8, the text `12ab`, the
text `300/7` at width 8 (the mask is already written, the value is rejected)
and `aa:bb:cc:dd:ee:f/24` (the mask is already written, the address is
rejected); each leaves the output `9 9 9 9 9 9`. -/
theorem C20_output_kept_on_failure_witness :
    ((parse_uint_slash_mask "300/7".toList [9, 9, 9, 9, 9, 9] 8 [0, 0, 0, 0, 0, 0]).ret = -1 ∧
        (parse_eth_addr_slash_mask "aa:bb:cc:dd:ee:f/24".toList [9, 9, 9, 9, 9, 9]
          [0, 0, 0, 0, 0, 0]).ret = -1) ∧
      (parse_uint_slash_mask "300/7".toList [9, 9, 9, 9, 9, 9] 8 [0, 0, 0, 0, 0, 0]).output
        = [9, 9, 9, 9, 9, 9] ∧
      (parse_eth_addr_slash_mask "aa:bb:cc:dd:ee:f/24".toList [9, 9, 9, 9, 9, 9]
          [0, 0, 0, 0, 0, 0]).output = [9, 9, 9, 9, 9, 9] ∧
      (parse_uint_slash_mask "300/7".toList [9, 9, 9, 9, 9, 9] 8 [0, 0, 0, 0, 0, 0]).mask
        = [7, 0, 0, 0, 0, 0] :=
  have h1 := C20_output_kept_on_failure 0 "300/7".toList [9, 9, 9, 9, 9, 9]
    [0, 0, 0, 0, 0, 0] 8 false
  have h2 := C20_output_kept_on_failure 0 "aa:bb:cc:dd:ee:f/24".toList [9, 9, 9, 9, 9, 9]
    [0, 0, 0, 0, 0, 0] 8 false
  ⟨by decide, h1.2.2.1 (by decide), h2.2.2.2 (by decide), by decide⟩


end Kefir
